import Mathlib

/-!
Verification of the realm-core query engine (`src/realm/query.cpp`,
`src/realm/query_engine.cpp`) against its natural-language specification.

The development shallowly embeds the query builder (predicate-tree assembly,
grouping, Or/Not handling), the execution planner (`find_best_node`,
`aggregate_internal`, `aggregate_local`), the `find_all` / `do_count`
terminal operations, the coalesced string-equality node
(`StringNode<Equal>`), and the `NotNode` known-range cache.

Conventions:
* `size_t` is embedded as `Nat`; `not_found` / `npos` (= `size_t(-1)`) is the
  constant `notFound = 2^64 - 1`; the few places where the C++ code relies on
  `size_t` wrap-around arithmetic use `wrapAdd` / `wrapSub` (mod `2^64`).
* `int64_t` is embedded as `Int`; the only overflow-sensitive spots
  (`value - 1` in `Query::greater_equal`, `value + 1` in `Query::less_equal`)
  are guarded in the source by `value > LLONG_MIN` / `value < LLONG_MAX`,
  so plain `Int` arithmetic is exact there.
* `double` statistics (`m_dD`, `m_dT`) are embedded as `ℚ`.  They are pure
  planner hints; no theorem below depends on rounding behaviour.
* Virtual dispatch over the closed family of predicate nodes is embedded as
  function-valued fields; per-node leaf readers that live outside the given
  translation units are modelled from the spec where noted.
-/

/-- `realm::not_found` / `realm::npos`, i.e. `size_t(-1)` on a 64-bit target. -/
def notFound : Nat := 2 ^ 64 - 1

/-- Wrap-around addition of `size_t` values (mod `2^64`). -/
def wrapAdd (a b : Nat) : Nat := (a + b) % 2 ^ 64

/-- Wrap-around subtraction of `size_t` values (mod `2^64`). -/
def wrapSub (a b : Nat) : Nat := (a + 2 ^ 64 - b % 2 ^ 64) % 2 ^ 64

/-- `LLONG_MIN` = `INT64_MIN`. -/
def INT64_MIN : Int := -(2 ^ 63)

/-- `LLONG_MAX` = `INT64_MAX`. -/
def INT64_MAX : Int := 2 ^ 63 - 1

/-- A cluster: one leaf of the table's B+-tree.  `offset` is the cluster's key
offset, `keys` the key array (`get_real_key(i) = offset + keys[i]`), `ivals`
an integer column payload and `svals` a (nullable) string column payload.
`node_size()` is `keys.length`. -/
structure Cluster where
  offset : Nat
  keys : List Nat
  ivals : List Int
  svals : List (Option String)

/-- `Cluster::node_size()`. -/
def Cluster.size (c : Cluster) : Nat := c.keys.length

/-- `Cluster::get_real_key(row) = cluster offset + key array entry`. -/
def Cluster.realKey (c : Cluster) (r : Nat) : Nat := c.offset + c.keys.getD r 0

/-- All real keys of a table (list of clusters), in cluster-traversal order. -/
def tableRealKeys (table : List Cluster) : List Nat :=
  table.flatMap fun c => (List.range c.size).map c.realKey

/-- Total number of rows of a table (`Table::size()`). -/
def tableSize (table : List Cluster) : Nat := (table.map Cluster.size).sum

/-- The cluster-tree invariant: real keys are strictly increasing along the
B+-tree traversal (spec §3). -/
def tableSorted (table : List Cluster) : Prop :=
  List.Chain' (· < ·) (tableRealKeys table)

/-- Generic `find_first(value, start, end)` contract of a column leaf reader
specialised to a row predicate: the least row in `[s, e)` satisfying `p`,
or `notFound`.  This is the single scan every `_find_first_local`
implementation in the sources performs (e.g.
`StringNode<Equal>::_find_first_local`, `StringNode<EqualIns>::_find_first_local`). -/
def findFirstLocalP (p : Nat → Bool) (s e : Nat) : Nat :=
  match (List.range' s (e - s)).find? p with
  | some r => r
  | none => notFound

/-! ## Query builder embedding (`Query` grouping state machine, query.cpp) -/

/-- Builder state of a `QueryGroup` (`QueryGroup::State`). -/
inductive GState where
  | Default
  | OrCondition
  | OrConditionChildren
deriving DecidableEq, Repr

/-- A builder-level predicate-tree node (`ParentNode` and its closed family).
Every node carries its AND-chain successor `m_child`.  A `cond` leaf carries
its per-row semantics (the condition functor applied to the column payload),
its serialised description, its recorded error string and its column key. -/
inductive PNodeB where
  | cond (sem : Cluster → Nat → Bool) (descr : String) (err : String)
      (col : Nat) (child : Option PNodeB)
  | orN (branches : List PNodeB) (child : Option PNodeB)
  | notN (sub : Option PNodeB) (child : Option PNodeB)

/-- `ParentNode::add_child`: append a node at the end of the AND chain. -/
def PNodeB.addChild : PNodeB → PNodeB → PNodeB
  | .cond f d e k c, n =>
    .cond f d e k (some (match c with | some ch => ch.addChild n | none => n))
  | .orN bs c, n =>
    .orN bs (some (match c with | some ch => ch.addChild n | none => n))
  | .notN s c, n =>
    .notN s (some (match c with | some ch => ch.addChild n | none => n))

/-- Modelled from the spec: `ParentNode::validate` (declared outside the given
translation units) returns the first recorded node error along the AND
chain (§7: "`validate()` returns the first recorded error"). -/
def PNodeB.validateTree : PNodeB → String
  | .cond _ _ e _ (some ch) => if e ≠ "" then e else ch.validateTree
  | .cond _ _ e _ none => e
  | .orN _ (some ch) => ch.validateTree
  | .orN _ none => ""
  | .notN _ (some ch) => ch.validateTree
  | .notN _ none => ""

mutual

/-- Modelled from the spec: `ParentNode::describe_expression` (declared outside
the given translation units) serialises the tree into the infix textual
form of §6.3.  Only its totality matters for the claims below. -/
def PNodeB.describeExpr : PNodeB → String
  | .cond _ d _ _ (some ch) => d ++ " and " ++ ch.describeExpr
  | .cond _ d _ _ none => d
  | .orN bs (some ch) => "(" ++ describeBranches bs ++ ") and " ++ ch.describeExpr
  | .orN bs none => "(" ++ describeBranches bs ++ ")"
  | .notN s (some ch) => "!(" ++ describeSub s ++ ") and " ++ ch.describeExpr
  | .notN s none => "!(" ++ describeSub s ++ ")"

/-- Serialise the branches of an `OrNode`, joined by `or`. -/
def describeBranches : List PNodeB → String
  | [] => ""
  | [t] => t.describeExpr
  | t :: ts => t.describeExpr ++ " or " ++ describeBranches ts

/-- Serialise the negated subtree of a `NotNode`. -/
def describeSub : Option PNodeB → String
  | some t => t.describeExpr
  | none => ""

end

/-- `realm::QueryGroup`: the per-group builder frame. -/
structure QueryGroup where
  root : Option PNodeB := none
  pendingNot : Bool := false
  state : GState := .Default

/-- `QueryGroup::operator=` (query.cpp:1985): copies the root node (deep clone)
and the pending-not flag, but not `m_state` (the target keeps its own).
The C++ self-assignment guard compares addresses; it is value-transparent
(assigning a group to itself leaves every field with its old value) and is
therefore not modelled separately. -/
def qgAssign (target source : QueryGroup) : QueryGroup :=
  { root := source.root, pendingNot := source.pendingNot, state := target.state }

/-- `QueryGroup::QueryGroup(const QueryGroup&)` (query.cpp:1978): copies the
root node (deep clone), the pending-not flag and `m_state`. -/
def qgCopy (source : QueryGroup) : QueryGroup :=
  { root := source.root, pendingNot := source.pendingNot, state := source.state }

/-- The `Query` builder state: `m_groups` (index 0 = outermost frame; the C++
`m_groups.back()` is the last list entry), the recorded validation error
`error_code`, and the presence flags of the two possible `m_view` sources. -/
structure QueryS where
  groups : List QueryGroup
  errorCode : String := ""
  sourceLinkList : Bool := false
  sourceTableView : Bool := false

/-- `Query::create()`: a fresh query has a single default group frame. -/
def emptyQuery : QueryS := { groups := [{}] }

/-- `m_view != nullptr`: a query is view-bound iff it was constructed from a
link list or a table view. -/
def QueryS.hasView (q : QueryS) : Bool := q.sourceLinkList || q.sourceTableView

/-- `Query::root_node() = m_groups[0].m_root_node`. -/
def QueryS.rootNode (q : QueryS) : Option PNodeB :=
  match q.groups with
  | g :: _ => g.root
  | [] => none

/-- `Query::has_conditions()`: the query has a root node. -/
def QueryS.hasConditions (q : QueryS) : Bool := q.rootNode.isSome

/-- Replace the last element of a list (mutation of `m_groups.back()`). -/
def updateLast {α : Type} (l : List α) (f : α → α) : List α :=
  match l.getLast? with
  | some g => l.dropLast ++ [f g]
  | none => l

/-- The state-machine part of `Query::add_node` (query.cpp:1840): attach a new
node to a group according to its builder state.  In the `OrCondition` /
`OrConditionChildren` states the C++ code asserts that the group root is an
`OrNode`; on invariant breakage (undefined behaviour in C++) the model
leaves the group unchanged — no theorem below exercises that corner. -/
def attachToGroup (g : QueryGroup) (n : PNodeB) : QueryGroup :=
  match g.state with
  | .OrCondition =>
    match g.root with
    | some (.orN bs child) =>
      { g with root := some (.orN (bs ++ [n]) child), state := .OrConditionChildren }
    | _ => g
  | .OrConditionChildren =>
    match g.root with
    | some (.orN bs child) =>
      match bs.getLast? with
      | some b => { g with root := some (.orN (bs.dropLast ++ [b.addChild n]) child) }
      | none => g
    | _ => g
  | .Default =>
    match g.root with
    | none => { g with root := some n }
    | some r => { g with root := some (r.addChild n) }

/-- `Query::handle_pending_not` (query.cpp:1313), with the mutual recursion
through `add_node` / `end_group` flattened into a single loop: while the
query is inside an implicit Not-group (more than one frame, pending-not
set), reparent the group's nodes into a `NotNode`, clear the flag, attach
the `NotNode` to the (now rootless) frame, pop the frame and attach its
root to the enclosing frame, and repeat on the enclosing frame.  Each round
pops exactly one frame, which is the termination measure; the trailing
`handle_pending_not` calls of the inner `add_node` / `end_group` are no-ops
respectively coincide with the next loop round. -/
def hpnLoop (q : QueryS) : QueryS :=
  match hq : q.groups.getLast? with
  | none => q
  | some g =>
    if _hlen : q.groups.length > 1 ∧ g.pendingNot = true then
      let notNode : PNodeB := .notN g.root none
      let g2 := attachToGroup { g with root := none, pendingNot := false } notNode
      let q1 : QueryS := { q with groups := q.groups.dropLast }
      let q2 : QueryS :=
        match g2.root with
        | some r => { q1 with groups := updateLast q1.groups (fun gl => attachToGroup gl r) }
        | none => q1
      hpnLoop q2
    else q
termination_by q.groups.length
decreasing_by
  have h1 : q.groups.length ≥ 1 := by
    cases hgl : q.groups with
    | nil => simp [hgl] at hq
    | cons a l => simp [hgl]
  simp only [q2, q1, updateLast]
  cases hg : (q.groups.dropLast).getLast? <;>
    cases hr : g2.root <;>
      simp_all [List.length_dropLast] <;> omega

/-- `Query::add_node` (query.cpp:1840): attach to the innermost frame, then
`handle_pending_not`. -/
def QueryS.addNode (q : QueryS) (n : PNodeB) : QueryS :=
  hpnLoop { q with groups := updateLast q.groups (fun g => attachToGroup g n) }

/-- `Query::group()` (query.cpp:1277): push a fresh frame. -/
def QueryS.group (q : QueryS) : QueryS := { q with groups := q.groups ++ [{}] }

/-- `Query::end_group()` (query.cpp:1282): with fewer than two frames, record
the validation error `"Unbalanced group"` and return the query unchanged
otherwise; else pop the innermost frame, attach its root (if any) to the
enclosing frame, and `handle_pending_not`. -/
def QueryS.endGroup (q : QueryS) : QueryS :=
  if q.groups.length < 2 then { q with errorCode := "Unbalanced group" }
  else
    match q.groups.getLast? with
    | none => q
    | some g =>
      let q1 : QueryS := { q with groups := q.groups.dropLast }
      let q2 := match g.root with
                | some r => q1.addNode r
                | none => q1
      hpnLoop q2

/-- `Query::Not()` (query.cpp:1301): push an implicit group with the
pending-not flag set. -/
def QueryS.notOp (q : QueryS) : QueryS :=
  { q with groups := updateLast q.group.groups (fun g => { g with pendingNot := true }) }

/-- `Query::Or()` (query.cpp:1327): unless already collecting Or-children,
reparent the innermost frame's root into a fresh `OrNode`
(`OrNode(std::unique_ptr<ParentNode>)` keeps a non-null argument as its
first branch); then set the frame state to `OrCondition`. -/
def QueryS.orOp (q : QueryS) : QueryS :=
  match q.groups.getLast? with
  | none => q
  | some g =>
    if g.state = .OrConditionChildren then
      { q with groups := updateLast q.groups (fun gl => { gl with state := .OrCondition }) }
    else
      let orNode : PNodeB := .orN (match g.root with | some r => [r] | none => []) none
      let q1 := QueryS.addNode
        { q with groups := updateLast q.groups (fun gl => { gl with root := none }) } orNode
      { q1 with groups := updateLast q1.groups (fun gl => { gl with state := .OrCondition }) }

/-- `Query::validate()` (query.cpp:1778): empty group vector → `""`; a recorded
builder error is returned first; otherwise a missing root is a syntax
error, else the tree is validated. -/
def QueryS.validate (q : QueryS) : String :=
  if q.groups.length = 0 then ""
  else if q.errorCode ≠ "" then q.errorCode
  else
    match q.rootNode with
    | none => "Syntax error"
    | some r => r.validateTree

/-- `Query::get_description` (query.cpp:1792): with a root node, a view-bound
query throws `SerialisationError` (embedded as `Except.error` with the
source's message text); otherwise the root is serialised.  Without a root
node the result is `TRUEPREDICATE`. -/
def QueryS.getDescription (q : QueryS) : Except String String :=
  match q.rootNode with
  | some r =>
    if q.hasView then
      .error "Serialisation of a query constrianed by a view is not currently supported"
    else
      .ok r.describeExpr
  | none => .ok "TRUEPREDICATE"

/-- The `IntegerNode<Greater>` condition leaf added by `Query::greater` /
`Query::greater_equal` on an integer column: row matches iff its value is
strictly greater than `v`. -/
def condGreaterInt (col : Nat) (v : Int) : PNodeB :=
  .cond (fun c r => decide (c.ivals.getD r 0 > v)) (toString col ++ " > " ++ toString v) "" col none

/-- The `IntegerNode<Less>` condition leaf added by `Query::less` /
`Query::less_equal` on an integer column. -/
def condLessInt (col : Nat) (v : Int) : PNodeB :=
  .cond (fun c r => decide (c.ivals.getD r 0 < v)) (toString col ++ " < " ++ toString v) "" col none

/-- `Query::greater_equal(ColKey, int64_t)` (query.cpp:639): `field >= LLONG_MIN`
has no effect; otherwise add `Greater(value - 1)`. -/
def QueryS.greaterEqualInt (q : QueryS) (col : Nat) (v : Int) : QueryS :=
  if v > INT64_MIN then q.addNode (condGreaterInt col (v - 1)) else q

/-- `Query::less_equal(ColKey, int64_t)` (query.cpp:647): `field <= LLONG_MAX`
has no effect; otherwise add `Less(value + 1)`. -/
def QueryS.lessEqualInt (q : QueryS) (col : Nat) (v : Int) : QueryS :=
  if v < INT64_MAX then q.addNode (condLessInt col (v + 1)) else q

/-- `Query::and_query` (query.cpp:1889): if the argument has a root node, move
it into this query via `add_node` and adopt the argument's source link
list (which becomes `m_view`). -/
def QueryS.andQuery (a q : QueryS) : QueryS :=
  match q.rootNode with
  | some r =>
    let a1 := a.addNode r
    if q.sourceLinkList then { a1 with sourceLinkList := true } else a1
  | none => a

/-- `Query::operator&&` (query.cpp:1915): without a root node on either side
the other operand is returned (the C++ returns a copy; copies deep-clone
`m_groups`, so the returned value equals the operand); otherwise a fresh
query on the same table and-joins both operands. -/
def QueryS.qAnd (a q : QueryS) : QueryS :=
  if a.rootNode.isNone then q
  else if q.rootNode.isNone then a
  else (emptyQuery.andQuery a).andQuery q

/-! ## Executor embedding (`aggregate_internal`, `find_all`, `do_count`) -/

/-- Modelled from the spec §4.5/§9(a): `findlocals` is the batch size of the
driving node's local-aggregate loop, a tuning constant declared outside the
given translation units.  Its exact positive value is immaterial to every
theorem below. -/
def findlocals : Nat := 64

/-- Modelled from the spec §4.4/§9(a): probe-window bound for non-driving
siblings; tuning constant, exact value immaterial. -/
def bestdist : Nat := 512

/-- Modelled from the spec §4.4/§9(a): local-match bound of a probe turn;
tuning constant, exact value immaterial. -/
def probe_matches : Nat := 4

/-- Static description of a predicate node: its per-row condition once bound to
a cluster, the statistics bootstrapped by `init()` (spec §4.4), and whether
a search index is attached.  The per-type leaf `find_first_local`
implementations outside the given translation units are modelled from the
spec contract (§4.3): least matching row in `[start, end)`; the
`StringNode<Equal>` scan, which is in the sources, is proven below to meet
this contract. -/
structure NodeSpec where
  pred : Cluster → Nat → Bool
  dD0 : ℚ
  dT0 : ℚ
  hasIndex : Bool

/-- Runtime node: static part plus the mutable statistics `m_dD` / `m_dT`. -/
structure NodeRT where
  spec : NodeSpec
  dD : ℚ
  dT : ℚ

/-- Placeholder node (the C++ never indexes out of range in the modelled
flows; `getD` defaults are never reached under the theorems' hypotheses). -/
def dNode : NodeRT := ⟨⟨fun _ _ => false, 0, 0, false⟩, 0, 0⟩

/-- `init()` bootstraps the statistics. -/
def initRT (n : NodeSpec) : NodeRT := ⟨n, n.dD0, n.dT0⟩

/-- Modelled from the spec §4.4: `ParentNode::cost() = dT + dD` (declared
outside the given translation units). -/
def NodeRT.cost (n : NodeRT) : ℚ := n.dT + n.dD

/-- A node's `find_first_local` bound to a cluster: least matching row in
`[s, e)` (spec §4.3 contract, see `NodeSpec`). -/
def NodeRT.ffl (n : NodeRT) (c : Cluster) (s e : Nat) : Nat :=
  findFirstLocalP (n.spec.pred c) s e

/-- `std::min_element` inner loop: keep the first element strictly smaller
than the current best, i.e. return the first index attaining the minimum. -/
def minElemIdxGo (best : Nat) (bc : ℚ) (i : Nat) : List ℚ → Nat
  | [] => best
  | x :: xs => if x < bc then minElemIdxGo i x (i + 1) xs else minElemIdxGo best bc (i + 1) xs

/-- `Query::find_best_node` (query.cpp:1000): index of the first
minimal-`cost()` child (`std::min_element` with strict-less comparison).
On an empty child vector `std::min_element` returns `end`, giving
distance 0. -/
def findBestNode (sibs : List NodeRT) : Nat :=
  match sibs.map NodeRT.cost with
  | [] => 0
  | c :: cs => minElemIdxGo 0 c 1 cs

/-- Aggregate state shared by the `find_all` and `count` reducers.  Modelled
from the spec §4.6 (the `QueryState` reducers are declared outside the
given translation units): `match(r)` appends the matched ObjKey
(`m_key_offset + m_key_values[r]`) to the output, increments
`m_match_count`, and returns `m_match_count < m_limit`.  The `count`
reducer performs the identical increment-and-compare and ignores the
output column. -/
structure AggState where
  limit : Nat
  matchCount : Nat
  keyOffset : Nat
  keyValues : List Nat
  out : List Nat

/-- `QueryStateBase::match` as used by `find_all` / `do_count` (see
`AggState`). -/
def AggState.doMatch (st : AggState) (r : Nat) : AggState × Bool :=
  let st2 : AggState := { st with
    matchCount := st.matchCount + 1,
    out := st.out ++ [st.keyOffset + st.keyValues.getD r 0] }
  (st2, decide (st2.matchCount < st2.limit))

/-- The sibling-verification loop of `ParentNode::aggregate_local`
(query_engine.cpp:113): probe each remaining condition at `[r, r+1)`,
stopping at the first disagreement; returns the last probe result
(`= r` iff every sibling agrees). -/
def verifySiblings (c : Cluster) (others : List NodeRT) (r : Nat) : Nat :=
  match others with
  | [] => r
  | n :: rest =>
    let m := n.ffl c r (r + 1)
    if m ≠ r then m else verifySiblings c rest r

/-- `ParentNode::aggregate_local` (query_engine.cpp:80), as a recursion over
the driving node's matches.  `fr` is the next row to search (the C++ loop
variable is `r = fr - 1`, kept as `lastR` for the `m_dD` updates, which use
`size_t` wrap-around when no match was found yet).  Returns the updated
driving node, the updated state, and the C++ return value: `lastR + 1`
after `L` local matches, `e` when the condition is exhausted, and
`size_t(-1)` when `state.match` requested a stop. -/
def aggregateLocalGo (c : Cluster) (others : List NodeRT) (start e L : Nat)
    (b : NodeRT) (st : AggState) (fr lastR lm : Nat) : NodeRT × AggState × Nat :=
  if lm = L then
    ({ b with dD := (wrapSub lastR start : ℚ) / ((lm : ℚ) + 11 / 10) }, st, wrapAdd lastR 1)
  else
    if hr : findFirstLocalP (b.spec.pred c) fr e = notFound then
      ({ b with dD := (wrapSub notFound start : ℚ) / ((lm : ℚ) + 11 / 10) }, st, e)
    else
      let r := findFirstLocalP (b.spec.pred c) fr e
      let m := verifySiblings c others r
      if m = r then
        let ms := st.doMatch r
        if ms.2 then aggregateLocalGo c others start e L b ms.1 (r + 1) r (lm + 1)
        else (b, ms.1, notFound)
      else aggregateLocalGo c others start e L b st (r + 1) r (lm + 1)
termination_by e - fr
decreasing_by
  all_goals
    rcases hfind : (List.range' fr (e - fr)).find? (b.spec.pred c) with _ | x
    · exact absurd (by simp [findFirstLocalP, hfind]) hr
    · have hx : findFirstLocalP (b.spec.pred c) fr e = x := by
        simp [findFirstLocalP, hfind]
      have hmem := List.mem_of_find?_eq_some hfind
      have hb := List.mem_range'_1.mp hmem
      simp only [hx]
      omega

/-- Entry point of `ParentNode::aggregate_local`: the C++ starts with
`r = start - 1` (`size_t` wrap-around when `start = 0`). -/
def aggregateLocal (c : Cluster) (b : NodeRT) (others : List NodeRT) (st : AggState)
    (start e L : Nat) : NodeRT × AggState × Nat :=
  aggregateLocalGo c others start e L b st start (wrapSub start 1) 0

/-- The probe loop of `Query::aggregate_internal` (query.cpp:1027): give every
non-best child whose `dT` undercuts its own `cost()` a probe window of
`bestdist` rows (unbounded for `dT = 0`), updating its statistics and the
shared scan position. -/
def probeLoop (cl : Cluster) (e best : Nat) (cIdx : Nat) (sibs : List NodeRT)
    (st : AggState) (start : Nat) : List NodeRT × AggState × Nat :=
  if h : cIdx < sibs.length ∧ start < e then
    if cIdx = best then probeLoop cl e best (cIdx + 1) sibs st start
    else
      let n := sibs.getD cIdx dNode
      if n.dT < n.cost then
        let maxD := if n.dT = 0 then e - start else bestdist
        let td := if n.dT = 0 then e else (if start + maxD > e then e else start + maxD)
        let res := aggregateLocal cl n (sibs.eraseIdx cIdx) st start td probe_matches
        probeLoop cl e best (cIdx + 1) (sibs.set cIdx res.1) res.2.1 res.2.2
      else probeLoop cl e best (cIdx + 1) sibs st start
  else (sibs, st, start)
termination_by sibs.length - cIdx
decreasing_by
  all_goals simp_all [List.length_set]
  all_goals omega

/-- The main loop of `Query::aggregate_internal` (query.cpp:1015): pick the
best child, let it aggregate a batch of up to `findlocals` matches, then
probe the remaining children; repeat until the range is exhausted or the
state signalled a stop (`start` jumps to `size_t(-1) ≥ e`).  The fuel
argument bounds the loop; each round advances `start`, so
`e - start + 1` rounds suffice for every `size_t`-range input (the
theorems below only evaluate the function in that regime). -/
def aggInternalGo (cl : Cluster) (e : Nat) : Nat → List NodeRT → AggState → Nat → List NodeRT × AggState
  | 0, sibs, st, _ => (sibs, st)
  | fuel + 1, sibs, st, start =>
    if start < e then
      let best := findBestNode sibs
      let n := sibs.getD best dNode
      let res := aggregateLocal cl n (sibs.eraseIdx best) st start e findlocals
      let pr := probeLoop cl e best 0 (sibs.set best res.1) res.2.1 res.2.2
      aggInternalGo cl e fuel pr.1 pr.2.1 pr.2.2
    else (sibs, st)

/-- `Query::aggregate_internal` over one cluster range. -/
def aggregateInternal (cl : Cluster) (sibs : List NodeRT) (st : AggState)
    (start e : Nat) : List NodeRT × AggState :=
  aggInternalGo cl e (e - start + 1) sibs st start

/-- The traversal callback of `Query::find_all` on the scan path
(query.cpp:1468): clip the per-cluster range by the running `begin` / `end`
counters (`size_t` arithmetic), aggregate, and stop once `end` hits zero or
the state reached its limit. -/
def findAllScanGo (sibs : List NodeRT) (st : AggState) (bg en : Nat) :
    List Cluster → List NodeRT × AggState
  | [] => (sibs, st)
  | cl :: rest =>
    let e0 := cl.size
    if bg < e0 then
      let e1 := if e0 > en then en else e0
      let st1 : AggState := { st with keyOffset := cl.offset, keyValues := cl.keys }
      let res := aggregateInternal cl sibs st1 bg e1
      let en1 := wrapSub en e1
      if en1 = 0 || res.2.matchCount = res.2.limit then res
      else findAllScanGo res.1 res.2 0 en1 rest
    else
      let en1 := wrapSub en e0
      if en1 = 0 || st.matchCount = st.limit then (sibs, st)
      else findAllScanGo sibs st (bg - e0) en1 rest

/-- The traversal callback of `Query::do_count` on the scan path
(query.cpp:1552): aggregate every cluster in full, stopping once the
limit is reached. -/
def countScanGo (sibs : List NodeRT) (st : AggState) : List Cluster → AggState
  | [] => st
  | cl :: rest =>
    let st1 : AggState := { st with keyOffset := cl.offset, keyValues := cl.keys }
    let res := aggregateInternal cl sibs st1 0 cl.size
    if res.2.matchCount = res.2.limit then res.2
    else countScanGo res.1 res.2 rest

/-- The condition-free traversal of `Query::find_all` (query.cpp:1416): copy
the clipped per-cluster key range, decrementing `limit`. -/
def findAllNoCondGo (bg en lim : Nat) (acc : List Nat) : List Cluster → List Nat
  | [] => acc
  | cl :: rest =>
    let e0 := cl.size
    if bg < e0 then
      let e1 := if e0 > en then en else e0
      let k := min (e1 - bg) lim
      let acc1 := acc ++ (List.range' bg k).map cl.realKey
      let lim1 := lim - k
      let en1 := wrapSub en e1
      if en1 = 0 || lim1 = 0 then acc1
      else findAllNoCondGo 0 en1 lim1 acc1 rest
    else
      let en1 := wrapSub en e0
      if en1 = 0 || lim = 0 then acc
      else findAllNoCondGo (bg - e0) en1 lim acc rest

/-- `ParentNode::find_first` (query_engine.cpp:41): round-robin over the
gathered conditions; a pointer advance re-arms the count of conditions
still to check; returns the agreed row once all conditions accepted it.
The fuel bounds the loop; each iteration advances the row or decrements
the countdown, so `(e - start + 1) * (count + 1)` iterations suffice for
every `size_t`-range input. -/
def parentFindFirstGo (cl : Cluster) (sibs : List NodeRT) (e : Nat) :
    Nat → Nat → Nat → Nat → Nat
  | 0, _, _, _ => notFound
  | fuel + 1, start, cc, nb =>
    if start < e then
      let m := (sibs.getD cc dNode).ffl cl start e
      let start1 := if m ≠ start then m else start
      let nb1 := (if m ≠ start then sibs.length else nb) - 1
      if nb1 = 0 then m
      else parentFindFirstGo cl sibs e fuel start1 (if cc + 1 = sibs.length then 0 else cc + 1) nb1
    else notFound

/-- `ParentNode::find_first(start, end)`. -/
def parentFindFirst (cl : Cluster) (sibs : List NodeRT) (start e : Nat) : Nat :=
  parentFindFirstGo cl sibs e ((e - start + 1) * (sibs.length + 1)) start 0 sibs.length

/-- `Query::eval_object` (query.cpp:923) composed with `ParentNode::match`
(query_engine.cpp:70): a condition-free query accepts every object;
otherwise bind the object's cluster and run `find_first(row, row+1)`. -/
def evalObjectQ (sibs : List NodeRT) (obj : Cluster × Nat) : Bool :=
  if sibs.isEmpty then true
  else decide (parentFindFirst obj.1 sibs obj.2 (obj.2 + 1) ≠ notFound)

/-- The key of an object given as a (cluster, row) position. -/
def objKey (o : Cluster × Nat) : Nat := o.1.realKey o.2

/-- All object positions of a table in cluster-traversal (ObjKey) order. -/
def tablePositions (table : List Cluster) : List (Cluster × Nat) :=
  table.flatMap fun c => (List.range c.size).map fun r => (c, r)

/-- Modelled from the spec §4.5/§6.1: `index_based_aggregate(limit, f)`
(declared outside the given translation units) feeds the index's matching
objects, in ObjKey order, to `f`, stopping once `limit` objects were
accepted (`f` returned true); the accepted objects are returned. -/
def indexAggregate : List (Cluster × Nat) → Nat → ((Cluster × Nat) → Bool) → List (Cluster × Nat)
  | [], _, _ => []
  | _, 0, _ => []
  | o :: os, lim + 1, accept =>
    if accept o then o :: indexAggregate os lim accept
    else indexAggregate os (lim + 1) accept

/-- Modelled from the spec §6.1: the search index of a node maps its value to
the matching objects in ObjKey order; over the embedded table these are
exactly the positions satisfying the node's condition, in traversal
order. -/
def indexMatches (n : NodeSpec) (table : List Cluster) : List (Cluster × Nat) :=
  (tablePositions table).filter fun o => n.pred o.1 o.2

/-- The view loop of `Query::find_all` (query.cpp:1403): scan the view range,
appending keys of accepted objects while the output is below the limit. -/
def findAllViewGo (rts : List NodeRT) (v : List (Cluster × Nat)) (t en lim : Nat)
    (acc : List Nat) : List Nat :=
  if _h : t < en ∧ acc.length < lim then
    let obj := v.getD t (⟨0, [], [], []⟩, 0)
    let acc1 := if evalObjectQ rts obj then acc ++ [objKey obj] else acc
    findAllViewGo rts v (t + 1) en lim acc1
  else acc
termination_by en - t
decreasing_by all_goals omega

/-- The view loop of `Query::do_count` (query.cpp:1523): count accepted
objects while below the limit. -/
def countViewGo (rts : List NodeRT) (v : List (Cluster × Nat)) (t lim cnt : Nat) : Nat :=
  if _h : t < v.length ∧ cnt < lim then
    countViewGo rts v (t + 1) lim (if evalObjectQ rts (v.getD t (⟨0, [], [], []⟩, 0)) then cnt + 1 else cnt)
  else cnt
termination_by v.length - t
decreasing_by all_goals omega

/-- A query as seen by the executor: the root group's AND-siblings
(`pn->m_children`) and the optional view (`m_view`). -/
structure ExecQuery where
  sibs : List NodeSpec
  view : Option (List (Cluster × Nat))

/-- Placeholder node description (never reached under the theorems'
hypotheses). -/
def dSpec : NodeSpec := ⟨fun _ _ => false, 0, 0, false⟩

/-- `Query::find_all(ret, begin, end, limit)` (query.cpp:1391), returning the
produced key column.  `end = size_t(-1)` selects the view/table size; a
zero limit short-circuits; the view path, the condition-free path, the
index fast path, and the cluster-scan path follow the source branches. -/
def findAllExec (q : ExecQuery) (table : List Cluster) (bg en lim : Nat) : List Nat :=
  if lim = 0 then []
  else
    let rts := q.sibs.map initRT
    match q.view with
    | some v =>
      let en2 := if en = notFound then v.length else en
      findAllViewGo rts v bg en2 lim []
    | none =>
      let en2 := if en = notFound then tableSize table else en
      if q.sibs.isEmpty then
        findAllNoCondGo bg en2 lim [] table
      else
        let best := findBestNode rts
        let bnode := q.sibs.getD best dSpec
        if bnode.hasIndex then
          let beginKey : Option Nat :=
            if bg ≥ tableSize table then none else some ((tableRealKeys table).getD bg 0)
          let endKey : Option Nat :=
            if en2 ≥ tableSize table then none else some ((tableRealKeys table).getD en2 0)
          let accepted := indexAggregate (indexMatches bnode table) lim fun o =>
            (match beginKey with | some bk => decide (bk ≤ objKey o) | none => true) &&
            (match endKey with | some ek => decide (objKey o < ek) | none => true) &&
            evalObjectQ rts o
          accepted.map objKey
        else
          (findAllScanGo rts ⟨lim, 0, 0, [], []⟩ bg en2 table).2.out

/-- `Query::do_count(limit)` (query.cpp:1505): zero limit short-circuits; a
condition-free query counts the clipped view/table size; otherwise the
view loop, the index fast path, or the cluster scan. -/
def doCountExec (q : ExecQuery) (table : List Cluster) (lim : Nat) : Nat :=
  if lim = 0 then 0
  else if q.sibs.isEmpty then
    match q.view with
    | some v => min v.length lim
    | none => min (tableSize table) lim
  else
    let rts := q.sibs.map initRT
    match q.view with
    | some v => countViewGo rts v 0 lim 0
    | none =>
      let best := findBestNode rts
      let bnode := q.sibs.getD best dSpec
      if bnode.hasIndex then
        (indexAggregate (indexMatches bnode table) lim fun o => evalObjectQ rts o).length
      else
        (countScanGo rts ⟨lim, 0, 0, [], []⟩ table).matchCount

/-! ## `StringNode<Equal>` needle-set coalescing (query_engine.cpp:237) -/

/-- The needle-relevant state of a `StringNode<Equal>`: the original condition
value `m_value` (`none` embeds a null string, distinct from the empty
string under `StringData` equality) and the needle set `m_needles`
(an unordered set, embedded as a duplicate-free insertion list; only
membership is observable). -/
structure StringEqNode where
  value : Option String
  needles : List (Option String)

/-- `std::unordered_set::insert`: add the element unless already present. -/
def insertNeedle (l : List (Option String)) (v : Option String) : List (Option String) :=
  if v ∈ l then l else l ++ [v]

/-- `StringNode<Equal>::consume_condition` (query_engine.cpp:237): on first
consumption seed the needle set with this node's own value (null value ↦
null `StringData`), then insert the other node's value. -/
def consumeCondition (m other : StringEqNode) : StringEqNode :=
  let m1 := if m.needles.isEmpty then { m with needles := insertNeedle m.needles m.value } else m
  { m1 with needles := insertNeedle m1.needles other.value }

/-- Modelled from the spec §4.1: `ArrayString::find_first(value, start, end)`
(declared outside the given translation units): least row in `[s, e)`
whose cell equals the value (null-aware). -/
def stringLeafFindFirst (leaf : List (Option String)) (v : Option String) (s e : Nat) : Nat :=
  findFirstLocalP (fun i => leaf.getD i none == v) s e

/-- The inner linear probe of `StringNode<Equal>::_find_first_local` for fewer
than 20 needles: cycle through the needles comparing each against the cell
value. -/
def linearProbe (needles : List (Option String)) (x : Option String) : Bool :=
  match needles with
  | [] => false
  | n :: rest => if n == x then true else linearProbe rest x

/-- The hash-set probe of `StringNode<Equal>::_find_first_local` for 20 or more
needles: `m_needles.find(value) != end` — set membership (the hash table
itself is outside the given translation units; membership is its
contract). -/
def hashProbe (needles : List (Option String)) (x : Option String) : Bool :=
  needles.contains x

/-- `StringNode<Equal>::_find_first_local` (query_engine.cpp:260): without
needles, delegate to the leaf reader; with needles, clamp `end == npos` to
the leaf size and run a single scan over the rows, testing each cell with
the linear probe below 20 needles and the hash probe otherwise. -/
def stringEqFindFirstLocal (n : StringEqNode) (leaf : List (Option String)) (s e0 : Nat) : Nat :=
  if n.needles.isEmpty then stringLeafFindFirst leaf n.value s e0
  else
    let e := if e0 = notFound then leaf.length else e0
    if n.needles.length < 20 then
      findFirstLocalP (fun i => linearProbe n.needles (leaf.getD i none)) s e
    else
      findFirstLocalP (fun i => hashProbe n.needles (leaf.getD i none)) s e

/-- Modelled from the spec §4.3 (the consuming caller is declared outside the
given translation units): AND-ing `N` equal-string conditions on the same
unindexed column consumes the subsequent nodes into the first one; the
result is the first node with the values of all `N` nodes as needles. -/
def coalesce (v1 : Option String) (vs : List (Option String)) : StringEqNode :=
  vs.foldl (fun m v => consumeCondition m ⟨v, []⟩) ⟨v1, []⟩

/-- The executor-level description of a coalesced `StringNode<Equal>` bound to
the string column: the per-row condition is the node's own single-row scan
`_find_first_local(r, r+1)`, and `StringNodeEqualBase::init`
(query_engine.cpp:135) bootstraps `dD = 10`, `dT = 10` (no string enum, no
search index). -/
def stringNodeSpecOf (n : StringEqNode) : NodeSpec :=
  ⟨fun c r => stringEqFindFirstLocal n c.svals r (r + 1) == r, 10, 10, false⟩

/-! ## `NotNode` known-range cache (query_engine.cpp:349) -/

/-- The `NotNode` cache: `{m_known_range_start, m_known_range_end,
m_first_in_known_range}`. -/
structure NotNodeState where
  knownStart : Nat
  knownEnd : Nat
  firstInKnown : Nat
deriving DecidableEq

/-- Modelled from the spec §5: the cache is reset on `init()` (the override is
declared outside the given translation units): empty known range, no first
match. -/
def notNodeInit : NotNodeState := ⟨0, 0, notFound⟩

/-- `NotNode::evaluate_at` (query_engine.cpp:368): the negated condition has no
match at the row. -/
def evaluateAt (cl : Cluster) (cond : List NodeRT) (r : Nat) : Bool :=
  parentFindFirst cl cond r (r + 1) == notFound

/-- `NotNode::find_first_loop` (query_engine.cpp:380): plain per-row scan. -/
def findFirstLoopN (cl : Cluster) (cond : List NodeRT) (s e : Nat) : Nat :=
  findFirstLocalP (fun i => evaluateAt cl cond i) s e

/-- `NotNode::find_first_covers_known` (query_engine.cpp:390). -/
def notCoversKnown (cl : Cluster) (cond : List NodeRT) (st : NotNodeState) (s e : Nat) :
    NotNodeState × Nat :=
  let result := findFirstLoopN cl cond s st.knownStart
  if result ≠ notFound then (⟨s, st.knownEnd, result⟩, result)
  else if st.firstInKnown ≠ notFound then (⟨s, st.knownEnd, st.firstInKnown⟩, st.firstInKnown)
  else
    let r2 := findFirstLoopN cl cond st.knownEnd e
    (⟨s, e, r2⟩, r2)

/-- `NotNode::find_first_covered_by_known` (query_engine.cpp:412). -/
def notCoveredByKnown (cl : Cluster) (cond : List NodeRT) (st : NotNodeState) (s e : Nat) :
    NotNodeState × Nat :=
  if st.firstInKnown ≠ notFound then
    if st.firstInKnown > e then (st, notFound)
    else if st.firstInKnown ≥ s then (st, st.firstInKnown)
    else (st, findFirstLoopN cl cond s e)
  else (st, findFirstLoopN cl cond s e)

/-- `NotNode::find_first_overlap_lower` (query_engine.cpp:430). -/
def notOverlapLower (cl : Cluster) (cond : List NodeRT) (st : NotNodeState) (s e : Nat) :
    NotNodeState × Nat :=
  let result0 := findFirstLoopN cl cond s st.knownStart
  let result := if result0 = notFound then st.firstInKnown else result0
  (⟨s, st.knownEnd, result⟩, if result < e then result else notFound)

/-- `NotNode::find_first_overlap_upper` (query_engine.cpp:445). -/
def notOverlapUpper (cl : Cluster) (cond : List NodeRT) (st : NotNodeState) (s e : Nat) :
    NotNodeState × Nat :=
  if st.firstInKnown ≠ notFound then
    if st.firstInKnown ≥ s then (⟨st.knownStart, e, st.firstInKnown⟩, st.firstInKnown)
    else (⟨st.knownStart, e, st.firstInKnown⟩, findFirstLoopN cl cond s e)
  else
    let result := findFirstLoopN cl cond st.knownEnd e
    (⟨st.knownStart, e, result⟩, result)

/-- `NotNode::find_first_no_overlap` (query_engine.cpp:468): plain scan; adopt
the probed range when it is larger than the cached one (`size_t`
subtraction). -/
def notNoOverlap (cl : Cluster) (cond : List NodeRT) (st : NotNodeState) (s e : Nat) :
    NotNodeState × Nat :=
  let result := findFirstLoopN cl cond s e
  let st1 := if wrapSub e s > wrapSub st.knownEnd st.knownStart then ⟨s, e, result⟩ else st
  (st1, result)

/-- `NotNode::find_first_local` (query_engine.cpp:349): dispatch over the five
cache cases. -/
def notFindFirstLocal (cl : Cluster) (cond : List NodeRT) (st : NotNodeState) (s e : Nat) :
    NotNodeState × Nat :=
  if s ≤ st.knownStart ∧ e ≥ st.knownEnd then notCoversKnown cl cond st s e
  else if s ≥ st.knownStart ∧ e ≤ st.knownEnd then notCoveredByKnown cl cond st s e
  else if s < st.knownStart ∧ e ≥ st.knownStart then notOverlapLower cl cond st s e
  else if s ≤ st.knownEnd ∧ e > st.knownEnd then notOverlapUpper cl cond st s e
  else notNoOverlap cl cond st s e

/-! ## Builder-to-executor bridge -/

mutual

/-- AND-semantics of a builder node together with its `m_child` chain; the
`OrNode` / `NotNode` semantics follow the spec §4.3 contracts (their
scheduling lives outside the given translation units; `NotNode`'s cached
implementation is analysed separately via `notFindFirstLocal`). -/
def PNodeB.nodeChainSem : PNodeB → Cluster → Nat → Bool
  | .cond f _ _ _ co, c, r => f c r && optChainSem co c r
  | .orN bs co, c, r => orAnySem bs c r && optChainSem co c r
  | .notN s co, c, r => (!(optChainSem s c r)) && optChainSem co c r

/-- AND-semantics of an optional chain (absent chain accepts). -/
def optChainSem : Option PNodeB → Cluster → Nat → Bool
  | some t, c, r => t.nodeChainSem c r
  | none, _, _ => true

/-- Any-branch semantics of an `OrNode`'s branch list (spec §4.3). -/
def orAnySem : List PNodeB → Cluster → Nat → Bool
  | [], _, _ => false
  | t :: ts, c, r => t.nodeChainSem c r || orAnySem ts c r

end

/-- Own condition of a node, its `m_child` chain excluded. -/
def PNodeB.ownSem : PNodeB → Cluster → Nat → Bool
  | .cond f _ _ _ _, c, r => f c r
  | .orN bs _, c, r => orAnySem bs c r
  | .notN s _, c, r => !(optChainSem s c r)

/-- `ParentNode::gather_children`: the root and its `m_child` chain as the
sibling vector `m_children` of the root group. -/
def PNodeB.chainList : PNodeB → List PNodeB
  | .cond f d e k (some ch) => .cond f d e k (some ch) :: ch.chainList
  | .cond f d e k none => [.cond f d e k none]
  | .orN bs (some ch) => .orN bs (some ch) :: ch.chainList
  | .orN bs none => [.orN bs none]
  | .notN s (some ch) => .notN s (some ch) :: ch.chainList
  | .notN s none => [.notN s none]

/-- Executor description of a builder node: its own condition with the
bootstrap statistics of a dense-scan node (spec §4.4; only planner hints)
and no search index. -/
def nodeSpecOfB (t : PNodeB) : NodeSpec := ⟨t.ownSem, 100, 10, false⟩

/-- The executor view of a table-bound builder query (`m_view == nullptr`):
the root group's AND-siblings. -/
def execOfQuery (q : QueryS) : ExecQuery :=
  { sibs := match q.rootNode with | some r => r.chainList.map nodeSpecOfB | none => []
  , view := none }

/-- `Query::find_all` of a table-bound builder query. -/
def findAllB (q : QueryS) (table : List Cluster) (bg en lim : Nat) : List Nat :=
  findAllExec (execOfQuery q) table bg en lim

/-! ## Ground-truth reference sets -/

/-- Rows of a cluster range matching all of a list of per-row conditions, in
row order. -/
def clusterMatchRows (preds : List (Cluster → Nat → Bool)) (cl : Cluster) (s e : Nat) : List Nat :=
  (List.range' s (e - s)).filter fun r => preds.all fun p => p cl r

/-- Object positions of a table matching all conditions, in ObjKey order. -/
def matchedPositions (preds : List (Cluster → Nat → Bool)) (table : List Cluster) :
    List (Cluster × Nat) :=
  (tablePositions table).filter fun o => preds.all fun p => p o.1 o.2

/-- Matching keys of a table, in ObjKey order. -/
def matchedKeys (preds : List (Cluster → Nat → Bool)) (table : List Cluster) : List Nat :=
  (matchedPositions preds table).map objKey

/-- Feed a row sequence into an aggregate state, stopping once `match`
returns false. -/
def feedStop (st : AggState) : List Nat → AggState
  | [] => st
  | r :: rest =>
    let ms := st.doMatch r
    if ms.2 then feedStop ms.1 rest else ms.1

/-- Rows of `[s, e)` satisfying a per-row condition, in row order. -/
def rowsFiltered (p : Nat → Bool) (s e : Nat) : List Nat :=
  (List.range' s (e - s)).filter p

/-- The per-row condition of a driving node together with its verification
siblings, as evaluated by `aggregate_local`. -/
def locAllP (c : Cluster) (b : NodeRT) (others : List NodeRT) (r : Nat) : Bool :=
  b.spec.pred c r && others.all fun n => n.spec.pred c r

/-- The joint condition of a sibling vector on one cluster. -/
def sibsAllP (c : Cluster) (sibs : List NodeRT) (r : Nat) : Bool :=
  sibs.all fun n => n.spec.pred c r

/-! ## Theorems.  Basic facts about the canonical range scan -/

theorem find?_range'_some {p : Nat → Bool} :
    ∀ (n s r : Nat), (List.range' s n).find? p = some r →
      s ≤ r ∧ r < s + n ∧ p r = true ∧ ∀ j, s ≤ j → j < r → p j = false := by
  intro n
  induction n with
  | zero => intro s r h; simp [List.range'] at h
  | succ n ih =>
    intro s r h
    rw [List.range'] at h
    by_cases hp : p s
    · rw [List.find?_cons_of_pos _ hp] at h
      obtain rfl : s = r := by injection h
      exact ⟨le_refl _, by omega, hp, by omega⟩
    · rw [List.find?_cons_of_neg _ (by simpa using hp)] at h
      obtain ⟨h1, h2, h3, h4⟩ := ih (s + 1) r h
      refine ⟨by omega, by omega, h3, ?_⟩
      intro j hj1 hj2
      rcases Nat.eq_or_lt_of_le hj1 with rfl | hlt
      · simpa using hp
      · exact h4 j hlt hj2

theorem findFirstLocalP_notFound {p : Nat → Bool} {s e : Nat}
    (h : findFirstLocalP p s e = notFound) (he : e ≤ notFound) :
    ∀ j, s ≤ j → j < e → p j = false := by
  intro j hj1 hj2
  unfold findFirstLocalP at h
  rcases hf : (List.range' s (e - s)).find? p with _ | x
  · have := List.find?_eq_none.mp hf j (by
      rw [List.mem_range'_1]; omega)
    simpa using this
  · obtain ⟨h1, h2, h3, h4⟩ := find?_range'_some (e - s) s x hf
    rw [hf] at h
    simp only at h
    omega

theorem findFirstLocalP_found {p : Nat → Bool} {s e : Nat}
    (h : findFirstLocalP p s e ≠ notFound) :
    s ≤ findFirstLocalP p s e ∧ findFirstLocalP p s e < e ∧
      p (findFirstLocalP p s e) = true ∧
      ∀ j, s ≤ j → j < findFirstLocalP p s e → p j = false := by
  unfold findFirstLocalP at *
  rcases hf : (List.range' s (e - s)).find? p with _ | x
  · rw [hf] at h; simp at h
  · obtain ⟨h1, h2, h3, h4⟩ := find?_range'_some (e - s) s x hf
    simp only [hf]
    have hxe : x < e := by omega
    exact ⟨h1, hxe, h3, h4⟩

theorem findFirstLocalP_eq_of {p : Nat → Bool} {s e r : Nat}
    (hr1 : s ≤ r) (hr2 : r < e) (hp : p r = true)
    (hmin : ∀ j, s ≤ j → j < r → p j = false) (he : e ≤ notFound) :
    findFirstLocalP p s e = r := by
  by_cases h : findFirstLocalP p s e = notFound
  · have := findFirstLocalP_notFound h he r hr1 hr2
    rw [hp] at this; cases this
  · obtain ⟨h1, h2, h3, h4⟩ := findFirstLocalP_found h
    rcases Nat.lt_trichotomy (findFirstLocalP p s e) r with hlt | heq | hgt
    · have := hmin _ h1 hlt
      rw [h3] at this; cases this
    · exact heq
    · have := h4 r hr1 hgt
      rw [hp] at this; cases this

theorem findFirstLocalP_ge_start {p : Nat → Bool} {s e : Nat}
    (h : findFirstLocalP p s e ≠ notFound) : s ≤ findFirstLocalP p s e :=
  (findFirstLocalP_found h).1

theorem findFirstLocalP_empty {p : Nat → Bool} {s e : Nat} (h : e ≤ s) :
    findFirstLocalP p s e = notFound := by
  unfold findFirstLocalP
  have : e - s = 0 := by omega
  simp [this, List.range']

theorem findFirstLocalP_singleton {p : Nat → Bool} (r : Nat) :
    findFirstLocalP p r (r + 1) = if p r then r else notFound := by
  unfold findFirstLocalP
  have : r + 1 - r = 1 := by omega
  by_cases hp : p r <;> simp [this, List.range', List.find?, hp]

/-! ## Claims C7, C8, C9, C10 (builder and serialisation) -/

/-- C7 (counterexample): the claim "get_description on a query bound to a view
fails with a serialisation-unsupported error" is false as stated: a
view-bound query with no conditions takes the empty-root branch first and
returns `TRUEPREDICATE` instead of failing (query.cpp:1792 tests
`root_node()` before `m_view`). -/
theorem claim_C7_counterexample :
    ({ groups := [{}], sourceTableView := true } : QueryS).hasView = true ∧
    ({ groups := [{}], sourceTableView := true } : QueryS).getDescription =
      Except.ok "TRUEPREDICATE" :=
  ⟨rfl, rfl⟩

/-- C7 (amended): `get_description` on a view-bound query with at least one
condition fails with the serialisation-unsupported error; on a query with
no conditions it returns `TRUEPREDICATE` (whether view-bound or not). -/
theorem claim_C7 (q : QueryS) :
    (q.rootNode.isSome = true → q.hasView = true →
      q.getDescription =
        Except.error "Serialisation of a query constrianed by a view is not currently supported") ∧
    (q.rootNode = none → q.getDescription = Except.ok "TRUEPREDICATE") := by
  unfold QueryS.getDescription
  rcases hr : q.rootNode with _ | r
  · exact ⟨by simp, by simp⟩
  · refine ⟨fun _ hv => ?_, by simp⟩
    simp [hv]

/-- C7 witness: the amended claim applied to a view-bound one-condition query
and to the empty query. -/
theorem claim_C7_witness :
    ({ groups := [{ root := some (.cond (fun _ _ => true) "T" "" 0 none) }],
       sourceTableView := true } : QueryS).getDescription =
      Except.error "Serialisation of a query constrianed by a view is not currently supported" ∧
    emptyQuery.getDescription = Except.ok "TRUEPREDICATE" :=
  ⟨(claim_C7 _).1 rfl rfl, (claim_C7 emptyQuery).2 rfl⟩

/-- C8: `end_group` with only the outermost frame on the stack records the
validation error "Unbalanced group" and leaves the group stack (hence the
predicate tree) unchanged; a subsequent `validate()` returns that error
(as a plain string, without throwing). -/
theorem claim_C8 (q : QueryS) (h : q.groups.length = 1) :
    q.endGroup = { q with errorCode := "Unbalanced group" } ∧
    q.endGroup.groups = q.groups ∧
    q.endGroup.rootNode = q.rootNode ∧
    q.endGroup.validate = "Unbalanced group" := by
  have hlt : q.groups.length < 2 := by omega
  have he : q.endGroup = { q with errorCode := "Unbalanced group" } := by
    unfold QueryS.endGroup
    rw [if_pos hlt]
  refine ⟨he, by rw [he], by rw [he]; rfl, ?_⟩
  rw [he]
  unfold QueryS.validate
  simp [h]

/-- C8 witness: the claim applied to a fresh query. -/
theorem claim_C8_witness :
    emptyQuery.endGroup = { emptyQuery with errorCode := "Unbalanced group" } ∧
    emptyQuery.endGroup.groups = emptyQuery.groups ∧
    emptyQuery.endGroup.rootNode = emptyQuery.rootNode ∧
    emptyQuery.endGroup.validate = "Unbalanced group" :=
  claim_C8 emptyQuery rfl

/-- C9: conjunction with a condition-free query is an identity on the
predicate tree: `operator&&` returns the other operand (a clone with an
equal tree) whenever one side has no root node. -/
theorem claim_C9 (q e : QueryS) (he : e.rootNode = none) :
    (q.qAnd e).rootNode = q.rootNode ∧ (e.qAnd q).rootNode = q.rootNode := by
  constructor
  · unfold QueryS.qAnd
    by_cases hq : q.rootNode.isNone
    · rw [if_pos hq, he]
      exact (Option.isNone_iff_eq_none.mp hq).symm
    · rw [if_neg hq, if_pos (by simp [he])]
  · unfold QueryS.qAnd
    rw [if_pos (by simp [he])]

/-- C9 witness: the claim applied to a one-condition query and the empty
query. -/
theorem claim_C9_witness :
    ((emptyQuery.addNode (.cond (fun _ _ => true) "T" "" 0 none)).qAnd emptyQuery).rootNode =
      (emptyQuery.addNode (.cond (fun _ _ => true) "T" "" 0 none)).rootNode ∧
    (emptyQuery.qAnd (emptyQuery.addNode (.cond (fun _ _ => true) "T" "" 0 none))).rootNode =
      (emptyQuery.addNode (.cond (fun _ _ => true) "T" "" 0 none)).rootNode :=
  claim_C9 (emptyQuery.addNode (.cond (fun _ _ => true) "T" "" 0 none)) emptyQuery rfl

/-- C10: `QueryGroup` copy assignment copies the root node and the pending-not
flag but keeps the target's builder state `m_state`, whereas copy
construction copies all three; so copy-assigning a group captured mid-Or
(state `OrCondition` or `OrConditionChildren`) into a default-state target
does not reproduce the source's builder state, while copy construction
does. -/
theorem claim_C10 (t s : QueryGroup)
    (hs : s.state = GState.OrCondition ∨ s.state = GState.OrConditionChildren)
    (ht : t.state = GState.Default) :
    (qgAssign t s).root = s.root ∧ (qgAssign t s).pendingNot = s.pendingNot ∧
    (qgAssign t s).state = t.state ∧ (qgAssign t s).state ≠ s.state ∧
    qgCopy s = s := by
  refine ⟨rfl, rfl, rfl, ?_, rfl⟩
  show t.state ≠ s.state
  rw [ht]
  rcases hs with hs | hs <;> rw [hs] <;> simp

/-- `handle_pending_not` is a no-op on a query with a single frame (the C++
loop requires `m_groups.size() > 1`). -/
theorem hpnLoop_single (q : QueryS) (h : q.groups.length ≤ 1) : hpnLoop q = q := by
  unfold hpnLoop
  split
  · rfl
  · rw [dif_neg]
    rintro ⟨hc, -⟩
    omega

/-- `add_node` on a single-frame query attaches to that frame
(`handle_pending_not` is a no-op). -/
theorem addNode_one (g : QueryGroup) (ec : String) (sl stv : Bool) (n : PNodeB) :
    QueryS.addNode ⟨[g], ec, sl, stv⟩ n = ⟨[attachToGroup g n], ec, sl, stv⟩ :=
  hpnLoop_single ⟨[attachToGroup g n], ec, sl, stv⟩ (by simp)

/-- `Or()` on a single-frame query not yet collecting Or-children: reparent the
root under a fresh `OrNode` and move to state `OrCondition`. -/
theorem orOp_one (g : QueryGroup) (ec : String) (sl stv : Bool)
    (hg : g.state ≠ GState.OrConditionChildren) :
    QueryS.orOp ⟨[g], ec, sl, stv⟩ =
      ⟨[{ attachToGroup { g with root := none }
            (.orN (match g.root with | some r => [r] | none => []) none)
          with state := GState.OrCondition }], ec, sl, stv⟩ := by
  unfold QueryS.orOp
  simp only [List.getLast?_singleton]
  rw [if_neg hg]
  have h2 : (updateLast ([g] : List QueryGroup) fun gl => { gl with root := none }) =
      [{ g with root := none }] := rfl
  rw [h2, addNode_one]
  rfl

/-- A query captured mid-Or construction: after one condition and `Or()`, the
innermost frame's builder state is `OrCondition`. -/
theorem orOp_state_example :
    ((emptyQuery.addNode (.cond (fun _ _ => true) "T" "" 0 none)).orOp).groups.getLastD {} =
      { root := some (.orN [.cond (fun _ _ => true) "T" "" 0 none] none),
        state := GState.OrCondition } := by
  have h1 : emptyQuery.addNode (.cond (fun _ _ => true) "T" "" 0 none) =
      ⟨[{ root := some (.cond (fun _ _ => true) "T" "" 0 none) }], "", false, false⟩ :=
    addNode_one {} "" false false _
  rw [h1, orOp_one _ _ _ _ (by simp)]
  rfl

/-- C10 witness: the source group is the innermost frame of a query captured
mid-Or construction (after `add_node` and `Or()`, its state is
`OrCondition`); the target is a default frame. -/
theorem claim_C10_witness :
    (qgAssign {} (((emptyQuery.addNode (.cond (fun _ _ => true) "T" "" 0 none)).orOp).groups.getLastD {})).state ≠
      (((emptyQuery.addNode (.cond (fun _ _ => true) "T" "" 0 none)).orOp).groups.getLastD {}).state ∧
    qgCopy (((emptyQuery.addNode (.cond (fun _ _ => true) "T" "" 0 none)).orOp).groups.getLastD {}) =
      ((emptyQuery.addNode (.cond (fun _ _ => true) "T" "" 0 none)).orOp).groups.getLastD {} := by
  have h := claim_C10 {}
    (((emptyQuery.addNode (.cond (fun _ _ => true) "T" "" 0 none)).orOp).groups.getLastD {})
    (Or.inl (by rw [orOp_state_example])) rfl
  exact ⟨h.2.2.2.1, h.2.2.2.2⟩

/-! ## Claim C6 (planner: argmin with stable tie-break) -/

/-- `std::min_element` loop invariant: given a processed prefix `pre` whose
first minimum sits at `best` with value `bc`, scanning the remainder
returns the index of the first minimum of the whole sequence (strict-less
replacement keeps the earliest minimum). -/
theorem minElemIdxGo_spec :
    ∀ (l pre : List ℚ) (best : Nat) (bc : ℚ),
      best < pre.length → pre.getD best 0 = bc →
      (∀ x ∈ pre, bc ≤ x) → (∀ k, k < best → bc < pre.getD k 0) →
      minElemIdxGo best bc pre.length l < (pre ++ l).length ∧
      (∀ x ∈ pre ++ l, (pre ++ l).getD (minElemIdxGo best bc pre.length l) 0 ≤ x) ∧
      (∀ k, k < minElemIdxGo best bc pre.length l →
        (pre ++ l).getD (minElemIdxGo best bc pre.length l) 0 < (pre ++ l).getD k 0) := by
  intro l
  induction l with
  | nil =>
    intro pre best bc h1 h2 h3 h4
    simp only [minElemIdxGo, List.append_nil]
    refine ⟨h1, ?_, ?_⟩
    · intro x hx; rw [h2]; exact h3 x hx
    · intro k hk; rw [h2]; exact h4 k hk
  | cons x xs ih =>
    intro pre best bc h1 h2 h3 h4
    have hgx : (pre ++ [x]).getD pre.length 0 = x := by
      rw [List.getD_append_right _ _ _ _ (le_refl _)]
      simp
    have hgpre : ∀ k, k < pre.length → (pre ++ [x]).getD k 0 = pre.getD k 0 := fun k hk =>
      List.getD_append _ _ _ _ hk
    have hassoc : pre ++ x :: xs = (pre ++ [x]) ++ xs := by simp
    show minElemIdxGo best bc pre.length (x :: xs) < _ ∧ _
    rw [hassoc]
    simp only [minElemIdxGo]
    by_cases hx : x < bc
    · rw [if_pos hx]
      have hlen : pre.length + 1 = (pre ++ [x]).length := by simp
      rw [hlen]
      refine ih (pre ++ [x]) pre.length x (by simp) hgx ?_ ?_
      · intro y hy
        rcases List.mem_append.mp hy with hy | hy
        · exact le_of_lt (lt_of_lt_of_le hx (h3 y hy))
        · simp only [List.mem_singleton] at hy
          exact le_of_eq hy.symm
      · intro k hk
        rw [hgpre k hk]
        have hmem : pre.getD k 0 ∈ pre := by
          rw [List.getD_eq_getElem _ _ hk]
          exact List.getElem_mem hk
        exact lt_of_lt_of_le hx (h3 _ hmem)
    · rw [if_neg hx]
      have hlen : pre.length + 1 = (pre ++ [x]).length := by simp
      rw [hlen]
      refine ih (pre ++ [x]) best bc (by simp; omega) ?_ ?_ ?_
      · rw [List.getD_append _ _ _ _ h1]; exact h2
      · intro y hy
        rcases List.mem_append.mp hy with hy | hy
        · exact h3 y hy
        · simp only [List.mem_singleton] at hy
          subst hy
          exact le_of_not_lt hx
      · intro k hk
        rw [hgpre k (lt_trans hk h1)]
        exact h4 k hk

/-- The cost list of a sibling vector, indexed compatibly. -/
theorem costsGetD (sibs : List NodeRT) (j : Nat) (hj : j < sibs.length) :
    (sibs.map NodeRT.cost).getD j 0 = (sibs.getD j dNode).cost := by
  rw [List.getD_eq_getElem _ _ (by simpa using hj), List.getD_eq_getElem _ _ hj]
  simp

/-- C6: `find_best_node` selects the child minimising `cost() = dT + dD`, and
on ties the earliest child in child order wins (every strictly earlier
child has strictly larger cost). -/
theorem claim_C6 (sibs : List NodeRT) (h : sibs ≠ []) :
    findBestNode sibs < sibs.length ∧
    (∀ j, j < sibs.length → (sibs.getD (findBestNode sibs) dNode).cost ≤ (sibs.getD j dNode).cost) ∧
    (∀ j, j < findBestNode sibs → (sibs.getD (findBestNode sibs) dNode).cost < (sibs.getD j dNode).cost) := by
  rcases hs : sibs.map NodeRT.cost with _ | ⟨c, cs⟩
  · exact absurd (List.map_eq_nil_iff.mp hs) h
  · have hbn : findBestNode sibs = minElemIdxGo 0 c 1 cs := by
      unfold findBestNode
      rw [hs]
    have hpre := minElemIdxGo_spec cs [c] 0 c (by simp) (by simp) (by simp) (by omega)
    have hcc : ([c] ++ cs) = sibs.map NodeRT.cost := by rw [hs]; rfl
    rw [hcc] at hpre
    have hlen1 : ([c] : List ℚ).length = 1 := rfl
    rw [hlen1] at hpre
    obtain ⟨hp1, hp2, hp3⟩ := hpre
    rw [List.length_map] at hp1
    rw [← hbn] at hp1 hp2 hp3
    refine ⟨hp1, ?_, ?_⟩
    · intro j hj
      have := hp2 ((sibs.map NodeRT.cost).getD j 0) (by
        rw [List.getD_eq_getElem _ _ (by simpa using hj)]
        exact List.getElem_mem _)
      rwa [costsGetD _ _ hp1, costsGetD _ _ hj] at this
    · intro j hj
      have := hp3 j hj
      rwa [costsGetD _ _ hp1, costsGetD _ _ (lt_trans hj hp1)] at this

/-- C6 witness: three children with a cost tie between the first two
(`3 = 3 < 10`): the earliest minimal child is chosen. -/
theorem claim_C6_witness :
    findBestNode [⟨dSpec, 1, 2⟩, ⟨dSpec, 2, 1⟩, ⟨dSpec, 0, 10⟩] <
      ([⟨dSpec, 1, 2⟩, ⟨dSpec, 2, 1⟩, ⟨dSpec, 0, 10⟩] : List NodeRT).length ∧
    (∀ j, j < ([⟨dSpec, 1, 2⟩, ⟨dSpec, 2, 1⟩, ⟨dSpec, 0, 10⟩] : List NodeRT).length →
      (([⟨dSpec, 1, 2⟩, ⟨dSpec, 2, 1⟩, ⟨dSpec, 0, 10⟩] : List NodeRT).getD
          (findBestNode [⟨dSpec, 1, 2⟩, ⟨dSpec, 2, 1⟩, ⟨dSpec, 0, 10⟩]) dNode).cost ≤
        (([⟨dSpec, 1, 2⟩, ⟨dSpec, 2, 1⟩, ⟨dSpec, 0, 10⟩] : List NodeRT).getD j dNode).cost) ∧
    (∀ j, j < findBestNode [⟨dSpec, 1, 2⟩, ⟨dSpec, 2, 1⟩, ⟨dSpec, 0, 10⟩] →
      (([⟨dSpec, 1, 2⟩, ⟨dSpec, 2, 1⟩, ⟨dSpec, 0, 10⟩] : List NodeRT).getD
          (findBestNode [⟨dSpec, 1, 2⟩, ⟨dSpec, 2, 1⟩, ⟨dSpec, 0, 10⟩]) dNode).cost <
        (([⟨dSpec, 1, 2⟩, ⟨dSpec, 2, 1⟩, ⟨dSpec, 0, 10⟩] : List NodeRT).getD j dNode).cost) :=
  claim_C6 [⟨dSpec, 1, 2⟩, ⟨dSpec, 2, 1⟩, ⟨dSpec, 0, 10⟩] (by simp)

/-! ## Row-filter and feed lemmas -/

theorem rowsFiltered_append (p : Nat → Bool) {s u e : Nat} (h1 : s ≤ u) (h2 : u ≤ e) :
    rowsFiltered p s e = rowsFiltered p s u ++ rowsFiltered p u e := by
  unfold rowsFiltered
  rw [← List.filter_append]
  congr 1
  have h := List.range'_append_1 s (u - s) (e - u)
  rw [show s + (u - s) = u by omega] at h
  rw [show (e - u) + (u - s) = e - s by omega] at h
  exact h.symm

theorem rowsFiltered_nil (p : Nat → Bool) {s e : Nat}
    (h : ∀ j, s ≤ j → j < e → p j = false) : rowsFiltered p s e = [] := by
  unfold rowsFiltered
  rw [List.filter_eq_nil_iff]
  intro a ha
  rw [List.mem_range'_1] at ha
  simp [h a ha.1 (by omega)]

theorem rowsFiltered_empty (p : Nat → Bool) {s e : Nat} (h : e ≤ s) :
    rowsFiltered p s e = [] := by
  unfold rowsFiltered
  rw [show e - s = 0 by omega]
  rfl

theorem rowsFiltered_one (p : Nat → Bool) (r : Nat) :
    rowsFiltered p r (r + 1) = if p r then [r] else [] := by
  unfold rowsFiltered
  rw [show r + 1 - r = 1 by omega]
  by_cases hp : p r <;> simp [List.range', hp]

theorem rowsFiltered_cons (p : Nat → Bool) {s r u : Nat} (h1 : s ≤ r) (h2 : r < u)
    (hp : p r = true) (hmin : ∀ j, s ≤ j → j < r → p j = false) :
    rowsFiltered p s u = r :: rowsFiltered p (r + 1) u := by
  rw [rowsFiltered_append p h1 (show r ≤ u by omega),
    rowsFiltered_nil p hmin,
    rowsFiltered_append p (show r ≤ r + 1 by omega) (show r + 1 ≤ u by omega),
    rowsFiltered_one, if_pos hp]
  rfl

theorem rowsFiltered_skip (p : Nat → Bool) {s r u : Nat} (h1 : s ≤ r) (h2 : r < u)
    (hp : p r = false) (hmin : ∀ j, s ≤ j → j < r → p j = false) :
    rowsFiltered p s u = rowsFiltered p (r + 1) u := by
  rw [rowsFiltered_append p (show s ≤ r + 1 by omega) (show r + 1 ≤ u by omega)]
  rw [rowsFiltered_nil p (fun j hj1 hj2 => by
    rcases Nat.lt_or_ge j r with hj | hj
    · exact hmin j hj1 hj
    · have : j = r := by omega
      subst this
      exact hp)]
  rfl

theorem doMatch_fst (st : AggState) (r : Nat) :
    (st.doMatch r).1 = { st with
      matchCount := st.matchCount + 1,
      out := st.out ++ [st.keyOffset + st.keyValues.getD r 0] } := rfl

theorem doMatch_snd (st : AggState) (r : Nat) :
    (st.doMatch r).2 = decide (st.matchCount + 1 < st.limit) := rfl

theorem feedStop_nil (st : AggState) : feedStop st [] = st := rfl

theorem feedStop_cons (st : AggState) (r : Nat) (rest : List Nat) :
    feedStop st (r :: rest) =
      (if (st.doMatch r).2 then feedStop (st.doMatch r).1 rest else (st.doMatch r).1) := rfl

theorem feedStop_limit (rows : List Nat) : ∀ st : AggState, (feedStop st rows).limit = st.limit := by
  induction rows with
  | nil => intro st; rfl
  | cons r rest ih =>
    intro st
    rw [feedStop_cons]
    by_cases h : (st.doMatch r).2 = true
    · rw [if_pos h, ih]; rfl
    · rw [if_neg h]; rfl

theorem feedStop_keyCtx (rows : List Nat) :
    ∀ st : AggState, (feedStop st rows).keyOffset = st.keyOffset ∧
      (feedStop st rows).keyValues = st.keyValues := by
  induction rows with
  | nil => intro st; exact ⟨rfl, rfl⟩
  | cons r rest ih =>
    intro st
    rw [feedStop_cons]
    by_cases h : (st.doMatch r).2 = true
    · rw [if_pos h]
      exact ih (st.doMatch r).1
    · rw [if_neg h]; exact ⟨rfl, rfl⟩

theorem feedStop_matchCount_le (rows : List Nat) :
    ∀ st : AggState, st.matchCount < st.limit →
      (feedStop st rows).matchCount ≤ st.limit := by
  induction rows with
  | nil => intro st h; exact le_of_lt h
  | cons r rest ih =>
    intro st h
    rw [feedStop_cons]
    by_cases hc : (st.doMatch r).2 = true
    · rw [if_pos hc]
      exact ih (st.doMatch r).1 (of_decide_eq_true hc)
    · rw [if_neg hc]
      show st.matchCount + 1 ≤ st.limit
      omega

theorem feedStop_append_cont (B : List Nat) :
    ∀ (A : List Nat) (st : AggState),
      (feedStop st A).matchCount < (feedStop st A).limit →
      feedStop st (A ++ B) = feedStop (feedStop st A) B := by
  intro A
  induction A with
  | nil => intro st _; rfl
  | cons r A ih =>
    intro st h
    rw [feedStop_cons] at h
    by_cases hc : (st.doMatch r).2 = true
    · rw [if_pos hc] at h
      rw [List.cons_append, feedStop_cons, if_pos hc, feedStop_cons, if_pos hc]
      exact ih (st.doMatch r).1 h
    · rw [if_neg hc] at h
      exact absurd (decide_eq_true h) hc

theorem feedStop_append_stop (B : List Nat) :
    ∀ (A : List Nat) (st : AggState),
      st.matchCount < st.limit →
      ¬ (feedStop st A).matchCount < (feedStop st A).limit →
      feedStop st (A ++ B) = feedStop st A := by
  intro A
  induction A with
  | nil => intro st h1 h2; exact absurd h1 h2
  | cons r A ih =>
    intro st h1 h2
    rw [feedStop_cons] at h2
    by_cases hc : (st.doMatch r).2 = true
    · rw [if_pos hc] at h2
      rw [List.cons_append, feedStop_cons, if_pos hc, feedStop_cons, if_pos hc]
      exact ih (st.doMatch r).1 (of_decide_eq_true hc) h2
    · rw [List.cons_append, feedStop_cons, if_neg hc, feedStop_cons, if_neg hc]

theorem feedStop_spec (rows : List Nat) :
    ∀ st : AggState, st.matchCount < st.limit →
      feedStop st rows = { st with
        matchCount := st.matchCount + min (st.limit - st.matchCount) rows.length,
        out := st.out ++ (rows.take (st.limit - st.matchCount)).map
          (fun r => st.keyOffset + st.keyValues.getD r 0) } := by
  induction rows with
  | nil =>
    intro st h
    simp [feedStop_nil]
  | cons r rest ih =>
    intro st h
    rw [feedStop_cons]
    by_cases hc : (st.doMatch r).2 = true
    · rw [if_pos hc]
      have hlt : st.matchCount + 1 < st.limit := of_decide_eq_true hc
      have hspec := ih (st.doMatch r).1 hlt
      rw [doMatch_fst] at hspec
      simp only at hspec
      rw [doMatch_fst, hspec]
      have htake : (r :: rest).take (st.limit - st.matchCount) =
          r :: rest.take (st.limit - (st.matchCount + 1)) := by
        rw [show st.limit - st.matchCount = (st.limit - (st.matchCount + 1)) + 1 by omega]
        rfl
      rw [htake]
      simp only [List.map_cons, List.length_cons, List.append_assoc, List.singleton_append,
        AggState.mk.injEq]
      refine ⟨trivial, by omega, trivial, trivial, trivial⟩
    · rw [if_neg hc, doMatch_fst]
      have hge : ¬ st.matchCount + 1 < st.limit := fun hx => hc (decide_eq_true hx)
      have hcap : st.limit - st.matchCount = 1 := by omega
      have hm : min (st.limit - st.matchCount) (r :: rest).length = 1 := by
        simp only [List.length_cons]
        omega
      rw [hm, hcap]
      rfl

/-! ## `aggregate_local` characterization -/

theorem wrapAdd_one {a : Nat} (h : a + 1 < 2 ^ 64) : wrapAdd a 1 = a + 1 := by
  unfold wrapAdd
  omega

theorem wrapAdd_wrapSub_one {a : Nat} (h : a < 2 ^ 64) : wrapAdd (wrapSub a 1) 1 = a := by
  unfold wrapAdd wrapSub
  omega

theorem verifySiblings_eq_iff (c : Cluster) (r : Nat) (hr : r ≠ notFound) :
    ∀ others : List NodeRT,
      (verifySiblings c others r = r) ↔ (others.all fun n => n.spec.pred c r) = true := by
  intro others
  induction others with
  | nil => simp [verifySiblings]
  | cons n rest ih =>
    show (if n.ffl c r (r + 1) ≠ r then n.ffl c r (r + 1) else verifySiblings c rest r) = r ↔ _
    have hffl : n.ffl c r (r + 1) = if n.spec.pred c r then r else notFound :=
      findFirstLocalP_singleton r
    by_cases hp : n.spec.pred c r = true
    · rw [hffl, if_pos hp]
      rw [if_neg (show ¬ r ≠ r by simp)]
      rw [ih]
      simp [hp]
    · rw [hffl, if_neg hp]
      rw [if_pos (Ne.symm hr)]
      simp only [List.all_cons, Bool.and_eq_true]
      constructor
      · intro hx; exact absurd hx (Ne.symm hr)
      · rintro ⟨hx, -⟩; exact absurd hx hp

theorem locAllP_true {c : Cluster} {b : NodeRT} {others : List NodeRT} {r : Nat}
    (hb : b.spec.pred c r = true) (ho : (others.all fun n => n.spec.pred c r) = true) :
    locAllP c b others r = true := by
  unfold locAllP
  rw [hb, ho]
  rfl

theorem locAllP_false_of_b {c : Cluster} {b : NodeRT} {others : List NodeRT} {r : Nat}
    (hb : b.spec.pred c r = false) : locAllP c b others r = false := by
  unfold locAllP
  rw [hb]
  rfl

theorem locAllP_false_of_others {c : Cluster} {b : NodeRT} {others : List NodeRT} {r : Nat}
    (ho : (others.all fun n => n.spec.pred c r) = false) : locAllP c b others r = false := by
  unfold locAllP
  rw [ho]
  exact Bool.and_false _

/-- Behaviour of the `aggregate_local` recursion: it advances through the
driving node's matches, feeding the fully-verified rows to the state in
row order; it returns within the range (past the processed prefix) in the
normal exits and `size_t(-1)` with a saturated state when the state
stopped.  The driving node keeps its condition and `dT` (only `dD` is
refreshed). -/
theorem aggLocalGo_spec (c : Cluster) (others : List NodeRT) (start e L : Nat) :
    ∀ (k fr lastR lm : Nat) (b : NodeRT) (st : AggState), e - fr = k →
      e ≤ notFound → fr ≤ e → wrapAdd lastR 1 = fr → st.matchCount < st.limit →
      ∃ b2 st2 ret, aggregateLocalGo c others start e L b st fr lastR lm = (b2, st2, ret) ∧
        b2.spec = b.spec ∧ b2.dT = b.dT ∧
        ((∃ u, fr ≤ u ∧ u ≤ e ∧ (fr < u ∨ u = e ∨ lm = L) ∧ ret = u ∧
            st2 = feedStop st (rowsFiltered (locAllP c b others) fr u) ∧
            st2.matchCount < st2.limit) ∨
          (ret = notFound ∧ st2 = feedStop st (rowsFiltered (locAllP c b others) fr e) ∧
            st2.matchCount = st2.limit)) := by
  intro k
  induction k using Nat.strong_induction_on with
  | _ k ih =>
    intro fr lastR lm b st hk he hfe hlr hmc
    rw [aggregateLocalGo]
    by_cases hlm : lm = L
    · rw [if_pos hlm]
      refine ⟨_, _, _, rfl, rfl, rfl, Or.inl ⟨fr, le_refl fr, hfe,
        Or.inr (Or.inr hlm), hlr, ?_, hmc⟩⟩
      rw [rowsFiltered_empty _ (le_refl fr), feedStop_nil]
    · rw [if_neg hlm]
      by_cases hr : findFirstLocalP (b.spec.pred c) fr e = notFound
      · rw [dif_pos hr]
        have hnone := findFirstLocalP_notFound hr he
        refine ⟨_, _, _, rfl, rfl, rfl, Or.inl ⟨e, hfe, le_refl e,
          Or.inr (Or.inl rfl), rfl, ?_, hmc⟩⟩
        rw [rowsFiltered_nil _ (fun j hj1 hj2 =>
          locAllP_false_of_b (hnone j hj1 hj2)), feedStop_nil]
      · rw [dif_neg hr]
        obtain ⟨hge, hlt, hp, hmin⟩ := findFirstLocalP_found hr
        have hrne : findFirstLocalP (b.spec.pred c) fr e ≠ notFound := hr
        have hradd : wrapAdd (findFirstLocalP (b.spec.pred c) fr e) 1 =
            findFirstLocalP (b.spec.pred c) fr e + 1 :=
          wrapAdd_one (by unfold notFound at he; omega)
        have hminP : ∀ j, fr ≤ j → j < findFirstLocalP (b.spec.pred c) fr e →
            locAllP c b others j = false := fun j h1 h2 =>
          locAllP_false_of_b (hmin j h1 h2)
        by_cases hm : verifySiblings c others (findFirstLocalP (b.spec.pred c) fr e) =
            findFirstLocalP (b.spec.pred c) fr e
        · rw [if_pos hm]
          have hall := (verifySiblings_eq_iff c _ hrne others).mp hm
          have hlocP : locAllP c b others (findFirstLocalP (b.spec.pred c) fr e) = true :=
            locAllP_true hp hall
          by_cases hms : (st.doMatch (findFirstLocalP (b.spec.pred c) fr e)).2 = true
          · rw [if_pos hms]
            have hmc2 : (st.doMatch (findFirstLocalP (b.spec.pred c) fr e)).1.matchCount <
                (st.doMatch (findFirstLocalP (b.spec.pred c) fr e)).1.limit :=
              of_decide_eq_true hms
            obtain ⟨b2, st2, ret, heq, hsp, hdt, hcase⟩ :=
              ih (e - (findFirstLocalP (b.spec.pred c) fr e + 1)) (by omega)
                (findFirstLocalP (b.spec.pred c) fr e + 1)
                (findFirstLocalP (b.spec.pred c) fr e) (lm + 1) b _ rfl he (by omega)
                hradd hmc2
            refine ⟨b2, st2, ret, heq, hsp, hdt, ?_⟩
            rcases hcase with ⟨u, hu1, hu2, _, hu4, hu5, hu6⟩ | ⟨hn1, hn2, hn3⟩
            · refine Or.inl ⟨u, by omega, hu2, Or.inl (by omega), hu4, ?_, hu6⟩
              rw [rowsFiltered_cons _ hge (by omega) hlocP hminP, feedStop_cons, if_pos hms]
              exact hu5
            · refine Or.inr ⟨hn1, ?_, hn3⟩
              rw [rowsFiltered_cons _ hge hlt hlocP hminP, feedStop_cons, if_pos hms]
              exact hn2
          · rw [if_neg hms]
            refine ⟨_, _, _, rfl, rfl, rfl, Or.inr ⟨rfl, ?_, ?_⟩⟩
            · rw [rowsFiltered_cons _ hge hlt hlocP hminP, feedStop_cons, if_neg hms]
            · show st.matchCount + 1 = st.limit
              have : ¬ st.matchCount + 1 < st.limit := fun hx => hms (decide_eq_true hx)
              omega
        · rw [if_neg hm]
          have hall : (others.all fun n =>
              n.spec.pred c (findFirstLocalP (b.spec.pred c) fr e)) = false := by
            rcases Bool.eq_false_or_eq_true (others.all fun n =>
              n.spec.pred c (findFirstLocalP (b.spec.pred c) fr e)) with hx | hx
            · exact absurd ((verifySiblings_eq_iff c _ hrne others).mpr hx) hm
            · exact hx
          have hlocF : locAllP c b others (findFirstLocalP (b.spec.pred c) fr e) = false :=
            locAllP_false_of_others hall
          obtain ⟨b2, st2, ret, heq, hsp, hdt, hcase⟩ :=
            ih (e - (findFirstLocalP (b.spec.pred c) fr e + 1)) (by omega)
              (findFirstLocalP (b.spec.pred c) fr e + 1)
              (findFirstLocalP (b.spec.pred c) fr e) (lm + 1) b st rfl he (by omega)
              hradd hmc
          refine ⟨b2, st2, ret, heq, hsp, hdt, ?_⟩
          rcases hcase with ⟨u, hu1, hu2, _, hu4, hu5, hu6⟩ | ⟨hn1, hn2, hn3⟩
          · refine Or.inl ⟨u, by omega, hu2, Or.inl (by omega), hu4, ?_, hu6⟩
            rw [rowsFiltered_skip _ hge (by omega) hlocF hminP]
            exact hu5
          · refine Or.inr ⟨hn1, ?_, hn3⟩
            rw [rowsFiltered_skip _ hge hlt hlocF hminP]
            exact hn2

/-! ## `aggregate_internal` characterization -/

theorem list_set_self {α : Type} : ∀ (l : List α) (i : Nat) (d : α), i < l.length →
    l.set i (l.getD i d) = l := by
  intro l
  induction l with
  | nil => intro i d h; simp at h
  | cons a t ih =>
    intro i d h
    cases i with
    | zero => simp
    | succ i =>
      simp only [List.set_cons_succ, List.getD_cons_succ]
      rw [ih i d (by simpa using h)]

theorem mapSpec_set {sibs : List NodeRT} {specs : List NodeSpec} {i : Nat} {b : NodeRT}
    (hs : sibs.map NodeRT.spec = specs) (hi : i < sibs.length)
    (hb : b.spec = (sibs.getD i dNode).spec) :
    (sibs.set i b).map NodeRT.spec = specs := by
  subst hs
  rw [List.map_set]
  have hgd : (sibs.getD i dNode).spec = (sibs.map NodeRT.spec).getD i dNode.spec := by
    rw [List.getD_eq_getElem _ _ hi, List.getD_eq_getElem _ _ (by simpa using hi)]
    simp
  rw [hb, hgd, list_set_self _ _ _ (by simpa using hi)]

theorem findBestNode_lt (sibs : List NodeRT) (h : sibs ≠ []) :
    findBestNode sibs < sibs.length := by
  rcases hs : sibs.map NodeRT.cost with _ | ⟨c, cs⟩
  · exact absurd (List.map_eq_nil_iff.mp hs) h
  · have hsp := (minElemIdxGo_spec cs [c] 0 c (by simp) (by simp) (by simp) (by omega)).1
    unfold findBestNode
    rw [hs]
    have hlen : ([c] ++ cs).length = sibs.length := by
      rw [show ([c] ++ cs) = sibs.map NodeRT.cost from by rw [hs]; rfl]
      simp
    rw [hlen] at hsp
    simpa using hsp

theorem sibsAllP_specs {sibs : List NodeRT} {specs : List NodeSpec}
    (hs : sibs.map NodeRT.spec = specs) (cl : Cluster) (r : Nat) :
    (specs.all fun s => s.pred cl r) = sibsAllP cl sibs r := by
  subst hs
  unfold sibsAllP
  induction sibs with
  | nil => rfl
  | cons a t ih => simp only [List.map_cons, List.all_cons, ih]

theorem locAllP_eraseIdx (cl : Cluster) (sibs : List NodeRT) (i : Nat) (hi : i < sibs.length)
    (r : Nat) :
    locAllP cl (sibs.getD i dNode) (sibs.eraseIdx i) r = sibsAllP cl sibs r := by
  unfold locAllP sibsAllP
  rw [List.eraseIdx_eq_take_drop_succ, List.all_append]
  conv_rhs => rw [← List.take_append_drop i sibs]
  rw [List.all_append, ← List.get_drop_eq_drop sibs i hi, List.all_cons]
  rw [List.getD_eq_getElem _ _ hi]
  cases hx : (sibs.take i).all fun n => n.spec.pred cl r <;>
    cases hy : (sibs.drop (i + 1)).all fun n => n.spec.pred cl r <;>
      cases hz : sibs.get ⟨i, hi⟩ |>.spec.pred cl r <;>
        simp_all [List.get_eq_getElem]

/-- `aggregate_local` from its public entry (`r = start - 1`, zero local
matches). -/
theorem aggregateLocal_spec (c : Cluster) (b : NodeRT) (others : List NodeRT) (st : AggState)
    (start e L : Nat) (he : e ≤ notFound) (hse : start ≤ e)
    (hmc : st.matchCount < st.limit) (hL : 0 < L) :
    ∃ b2 st2 ret, aggregateLocal c b others st start e L = (b2, st2, ret) ∧
      b2.spec = b.spec ∧ b2.dT = b.dT ∧
      ((∃ u, start ≤ u ∧ u ≤ e ∧ (start < u ∨ u = e) ∧ ret = u ∧
          st2 = feedStop st (rowsFiltered (locAllP c b others) start u) ∧
          st2.matchCount < st2.limit) ∨
        (ret = notFound ∧ st2 = feedStop st (rowsFiltered (locAllP c b others) start e) ∧
          st2.matchCount = st2.limit)) := by
  obtain ⟨b2, st2, ret, heq, h1, h2, h3⟩ := aggLocalGo_spec c others start e L (e - start) start
    (wrapSub start 1) 0 b st rfl he hse
    (wrapAdd_wrapSub_one (by unfold notFound at he; omega)) hmc
  refine ⟨b2, st2, ret, heq, h1, h2, ?_⟩
  rcases h3 with ⟨u, hu1, hu2, hu3, hu4, hu5, hu6⟩ | hB
  · refine Or.inl ⟨u, hu1, hu2, ?_, hu4, hu5, hu6⟩
    rcases hu3 with h | h | h
    · exact Or.inl h
    · exact Or.inr h
    · omega
  · exact Or.inr hB

theorem probeLoop_stopped (cl : Cluster) (e best cIdx : Nat) (sibs : List NodeRT)
    (st : AggState) (start : Nat) (h : ¬ start < e) :
    probeLoop cl e best cIdx sibs st start = (sibs, st, start) := by
  rw [probeLoop]
  rw [dif_neg (by tauto)]

/-- The probe pass of `aggregate_internal`: sibling probes advance the scan
position, feeding every fully-matching row of the covered span to the
state in order; node conditions are untouched (only statistics change). -/
theorem probeLoop_spec (cl : Cluster) (e best : Nat) (specs : List NodeSpec) :
    ∀ (n cIdx : Nat) (sibs : List NodeRT) (st : AggState) (start : Nat),
      sibs.length - cIdx = n → sibs.map NodeRT.spec = specs →
      e ≤ notFound → start ≤ e → st.matchCount < st.limit →
      ∃ sibs2 st2 start2, probeLoop cl e best cIdx sibs st start = (sibs2, st2, start2) ∧
        sibs2.map NodeRT.spec = specs ∧
        ((∃ u, start ≤ u ∧ u ≤ e ∧ start2 = u ∧
            st2 = feedStop st (rowsFiltered (fun r => specs.all fun s => s.pred cl r) start u) ∧
            st2.matchCount < st2.limit) ∨
          (start2 = notFound ∧
            st2 = feedStop st (rowsFiltered (fun r => specs.all fun s => s.pred cl r) start e) ∧
            st2.matchCount = st2.limit)) := by
  intro n
  induction n using Nat.strong_induction_on with
  | _ n ih =>
    intro cIdx sibs st start hn hs he hse hmc
    by_cases hcond : cIdx < sibs.length ∧ start < e
    · rw [probeLoop, dif_pos hcond]
      by_cases hbe : cIdx = best
      · rw [if_pos hbe]
        exact ih (sibs.length - (cIdx + 1)) (by omega) (cIdx + 1) sibs st start rfl hs he hse hmc
      · rw [if_neg hbe]
        have hP : ∀ r, locAllP cl (sibs.getD cIdx dNode) (sibs.eraseIdx cIdx) r =
            (fun r => specs.all fun s => s.pred cl r) r := by
          intro r
          rw [locAllP_eraseIdx cl sibs cIdx hcond.1 r, ← sibsAllP_specs hs]
        have hPF : locAllP cl (sibs.getD cIdx dNode) (sibs.eraseIdx cIdx) =
            (fun r => specs.all fun s => s.pred cl r) := funext hP
        have hstep : ∀ td, start ≤ td → td ≤ e →
            ∃ sibs2 st2 start2,
              probeLoop cl e best (cIdx + 1)
                (sibs.set cIdx
                  (aggregateLocal cl (sibs.getD cIdx dNode) (sibs.eraseIdx cIdx) st start td
                    probe_matches).1)
                (aggregateLocal cl (sibs.getD cIdx dNode) (sibs.eraseIdx cIdx) st start td
                  probe_matches).2.1
                (aggregateLocal cl (sibs.getD cIdx dNode) (sibs.eraseIdx cIdx) st start td
                  probe_matches).2.2 = (sibs2, st2, start2) ∧
              sibs2.map NodeRT.spec = specs ∧
              ((∃ u, start ≤ u ∧ u ≤ e ∧ start2 = u ∧
                  st2 = feedStop st
                    (rowsFiltered (fun r => specs.all fun s => s.pred cl r) start u) ∧
                  st2.matchCount < st2.limit) ∨
                (start2 = notFound ∧
                  st2 = feedStop st
                    (rowsFiltered (fun r => specs.all fun s => s.pred cl r) start e) ∧
                  st2.matchCount = st2.limit)) := by
          intro td htd1 htd2
          obtain ⟨b2, st', ret, heq, hbs, hbd, hcase⟩ :=
            aggregateLocal_spec cl (sibs.getD cIdx dNode) (sibs.eraseIdx cIdx) st start td
              probe_matches (le_trans htd2 he) htd1 hmc (by norm_num [probe_matches])
          rw [heq]
          dsimp only
          rcases hcase with ⟨u, hu1, hu2, hu3, hu4, hu5, hu6⟩ | ⟨hr1, hr2, hr3⟩
          · rw [hPF] at hu5
            rw [hu4]
            obtain ⟨sibs2, st2, start2, heq2, hs2, hcase2⟩ :=
              ih (sibs.length - (cIdx + 1)) (by omega) (cIdx + 1) (sibs.set cIdx b2) st' u
                (by rw [List.length_set]) (mapSpec_set hs hcond.1 hbs) he
                (le_trans hu2 htd2) hu6
            refine ⟨sibs2, st2, start2, heq2, hs2, ?_⟩
            rcases hcase2 with ⟨u2, hv1, hv2, hv3, hv4, hv5⟩ | ⟨hw1, hw2, hw3⟩
            · refine Or.inl ⟨u2, by omega, hv2, hv3, ?_, hv5⟩
              rw [rowsFiltered_append _ hu1 hv1,
                feedStop_append_cont _ _ _ (by rw [← hu5]; exact hu6), ← hu5]
              exact hv4
            · refine Or.inr ⟨hw1, ?_, hw3⟩
              rw [rowsFiltered_append _ hu1 (le_trans hu2 htd2),
                feedStop_append_cont _ _ _ (by rw [← hu5]; exact hu6), ← hu5]
              exact hw2
          · subst hr1
            rw [hPF] at hr2
            rw [probeLoop_stopped _ _ _ _ _ _ _ (by unfold notFound at he ⊢; omega)]
            refine ⟨_, _, _, rfl, mapSpec_set hs hcond.1 hbs, Or.inr ⟨rfl, ?_, hr3⟩⟩
            rw [rowsFiltered_append _ htd1 htd2,
              feedStop_append_stop _ _ _ hmc (by rw [← hr2]; omega)]
            exact hr2
        by_cases hdt : (sibs.getD cIdx dNode).dT < (sibs.getD cIdx dNode).cost
        · rw [if_pos hdt]
          by_cases hz : (sibs.getD cIdx dNode).dT = 0
          · simp only [if_pos hz]
            exact hstep e (le_of_lt hcond.2) (le_refl e)
          · simp only [if_neg hz]
            by_cases hgt : start + bestdist > e
            · simp only [if_pos hgt]
              exact hstep e (le_of_lt hcond.2) (le_refl e)
            · simp only [if_neg hgt]
              exact hstep (start + bestdist) (Nat.le_add_right _ _) (by omega)
        · rw [if_neg hdt]
          exact ih (sibs.length - (cIdx + 1)) (by omega) (cIdx + 1) sibs st start rfl hs he hse hmc
    · rw [probeLoop, dif_neg hcond]
      refine ⟨sibs, st, start, rfl, hs, Or.inl ⟨start, le_refl _, hse, rfl, ?_, hmc⟩⟩
      rw [rowsFiltered_empty _ (le_refl start), feedStop_nil]

theorem aggInternalGo_stopped (cl : Cluster) (e fuel : Nat) (sibs : List NodeRT)
    (st : AggState) (start : Nat) (h : ¬ start < e) :
    aggInternalGo cl e fuel sibs st start = (sibs, st) := by
  cases fuel with
  | zero => rfl
  | succ f =>
    rw [aggInternalGo]
    rw [if_neg h]

/-- The main loop of `aggregate_internal` feeds exactly the rows of
`[start, e)` matching all sibling conditions to the state, in row order
(with the state's stop semantics); sibling conditions are preserved. -/
theorem aggInternalGo_spec (cl : Cluster) (e : Nat) (specs : List NodeSpec) :
    ∀ (fuel : Nat) (sibs : List NodeRT) (st : AggState) (start : Nat),
      sibs.map NodeRT.spec = specs → sibs ≠ [] →
      e ≤ notFound → st.matchCount < st.limit → fuel ≥ e - start →
      ∃ sibs2 st2, aggInternalGo cl e fuel sibs st start = (sibs2, st2) ∧
        sibs2.map NodeRT.spec = specs ∧
        st2 = feedStop st (rowsFiltered (fun r => specs.all fun s => s.pred cl r) start e) := by
  intro fuel
  induction fuel with
  | zero =>
    intro sibs st start hs hne he hmc hf
    refine ⟨sibs, st, rfl, hs, ?_⟩
    rw [rowsFiltered_empty _ (by omega), feedStop_nil]
  | succ fuel ih =>
    intro sibs st start hs hne he hmc hf
    by_cases hlt : start < e
    · rw [aggInternalGo, if_pos hlt]
      simp only []
      have hbest : findBestNode sibs < sibs.length := findBestNode_lt sibs hne
      have hP : locAllP cl (sibs.getD (findBestNode sibs) dNode)
          (sibs.eraseIdx (findBestNode sibs)) = (fun r => specs.all fun s => s.pred cl r) :=
        funext fun r => by rw [locAllP_eraseIdx cl sibs _ hbest r, ← sibsAllP_specs hs]
      obtain ⟨b2, st', ret, heq, hbs, hbd, hcase⟩ :=
        aggregateLocal_spec cl (sibs.getD (findBestNode sibs) dNode)
          (sibs.eraseIdx (findBestNode sibs)) st start e findlocals he (le_of_lt hlt) hmc
          (by norm_num [findlocals])
      rw [heq]
      dsimp only
      rcases hcase with ⟨u, hu1, hu2, hu3, hu4, hu5, hu6⟩ | ⟨hr1, hr2, hr3⟩
      · rw [hP] at hu5
        rw [hu4]
        obtain ⟨sibs2, st2, start2, heq2, hs2, hcase2⟩ :=
          probeLoop_spec cl e (findBestNode sibs) specs
            ((sibs.set (findBestNode sibs) b2).length - 0) 0
            (sibs.set (findBestNode sibs) b2) st' u rfl (mapSpec_set hs hbest hbs) he hu2 hu6
        rw [heq2]
        have hne2 : sibs2 ≠ [] := by
          intro hx
          rw [hx] at hs2
          have : sibs = [] := by
            have hspn : specs = [] := hs2.symm
            rw [hspn] at hs
            exact List.map_eq_nil_iff.mp hs
          exact hne this
        rcases hcase2 with ⟨u2, hv1, hv2, hv3, hv4, hv5⟩ | ⟨hw1, hw2, hw3⟩
        · rw [hv3]
          obtain ⟨sibs3, st3, heq3, hs3, hfeed3⟩ := ih sibs2 st2 u2 hs2 hne2 he hv5 (by
            rcases hu3 with hx | hx
            · omega
            · omega)
          refine ⟨sibs3, st3, heq3, hs3, ?_⟩
          rw [rowsFiltered_append _ hu1 hu2,
            feedStop_append_cont _ _ _ (by rw [← hu5]; exact hu6), ← hu5,
            rowsFiltered_append _ hv1 hv2,
            feedStop_append_cont _ _ _ (by rw [← hv4]; exact hv5), ← hv4]
          exact hfeed3
        · rw [hw1]
          rw [aggInternalGo_stopped cl e fuel sibs2 st2 notFound (by unfold notFound at he ⊢; omega)]
          refine ⟨_, _, rfl, hs2, ?_⟩
          rw [rowsFiltered_append _ hu1 hu2,
            feedStop_append_cont _ _ _ (by rw [← hu5]; exact hu6), ← hu5]
          exact hw2
      · rw [hP] at hr2
        rw [hr1]
        rw [probeLoop_stopped _ _ _ _ _ _ _ (by unfold notFound at he ⊢; omega)]
        dsimp only
        rw [aggInternalGo_stopped _ _ _ _ _ _ (by unfold notFound at he ⊢; omega)]
        exact ⟨_, _, rfl, mapSpec_set hs hbest hbs, hr2⟩
    · rw [aggInternalGo_stopped _ _ _ _ _ _ hlt]
      refine ⟨sibs, st, rfl, hs, ?_⟩
      rw [rowsFiltered_empty _ (by omega), feedStop_nil]

/-- `Query::aggregate_internal` over one cluster range: the state receives
exactly the fully-matching rows of the range, in order. -/
theorem aggregateInternal_spec (cl : Cluster) (specs : List NodeSpec) (sibs : List NodeRT)
    (st : AggState) (start e : Nat) (hs : sibs.map NodeRT.spec = specs) (hne : sibs ≠ [])
    (he : e ≤ notFound) (hmc : st.matchCount < st.limit) :
    ∃ sibs2 st2, aggregateInternal cl sibs st start e = (sibs2, st2) ∧
      sibs2.map NodeRT.spec = specs ∧
      st2 = feedStop st (rowsFiltered (fun r => specs.all fun s => s.pred cl r) start e) :=
  aggInternalGo_spec cl e specs (e - start + 1) sibs st start hs hne he hmc (by omega)

/-! ## Cluster traversal characterization -/

theorem wrapSub_exact {a b : Nat} (ha : a < 2 ^ 64) (hb : b ≤ a) : wrapSub a b = a - b := by
  unfold wrapSub
  omega

theorem predsAll_map (specs : List NodeSpec) (c : Cluster) (r : Nat) :
    ((specs.map NodeSpec.pred).all fun p => p c r) = specs.all fun s => s.pred c r := by
  induction specs with
  | nil => rfl
  | cons a t ih => simp only [List.map_cons, List.all_cons, ih]

theorem clusterMatchRows_eq (specs : List NodeSpec) (c : Cluster) (s e : Nat) :
    rowsFiltered (fun r => specs.all fun x => x.pred c r) s e =
      clusterMatchRows (specs.map NodeSpec.pred) c s e := by
  unfold rowsFiltered clusterMatchRows
  congr 1
  funext r
  rw [predsAll_map]

theorem tableSize_cons (c : Cluster) (t : List Cluster) :
    tableSize (c :: t) = c.size + tableSize t := by
  unfold tableSize
  simp

theorem tablePositions_length (table : List Cluster) :
    (tablePositions table).length = tableSize table := by
  induction table with
  | nil => rfl
  | cons c t ih =>
    unfold tablePositions at ih ⊢
    rw [tableSize_cons]
    simp [ih]

theorem matchedKeys_cons (preds : List (Cluster → Nat → Bool)) (c : Cluster)
    (t : List Cluster) :
    matchedKeys preds (c :: t) =
      (clusterMatchRows preds c 0 c.size).map c.realKey ++ matchedKeys preds t := by
  unfold matchedKeys matchedPositions tablePositions clusterMatchRows
  simp only [List.flatMap_cons, List.filter_append, List.map_append]
  congr 1
  rw [List.filter_map, List.map_map]
  have hr : List.range c.size = List.range' 0 (c.size - 0) := by
    rw [Nat.sub_zero]
    exact List.range_eq_range' c.size
  rw [← hr]
  rfl

theorem matchedKeys_length_le (preds : List (Cluster → Nat → Bool)) (table : List Cluster) :
    (matchedKeys preds table).length ≤ tableSize table := by
  unfold matchedKeys
  rw [List.length_map, ← tablePositions_length]
  unfold matchedPositions
  exact List.length_filter_le _ _

theorem matchedKeys_nil_of_size (preds : List (Cluster → Nat → Bool)) (table : List Cluster)
    (h : tableSize table = 0) : matchedKeys preds table = [] := by
  have := matchedKeys_length_le preds table
  rw [h] at this
  exact List.length_eq_zero.mp (by omega)

theorem specs_ne_nil {sibs sibs2 : List NodeRT} {specs : List NodeSpec}
    (hs : sibs.map NodeRT.spec = specs) (hne : sibs ≠ [])
    (hs2 : sibs2.map NodeRT.spec = specs) : sibs2 ≠ [] := by
  intro hx
  rw [hx] at hs2
  rw [← hs2] at hs
  exact hne (List.map_eq_nil_iff.mp hs)

theorem realKey_fun (cl : Cluster) :
    (fun r => cl.offset + cl.keys.getD r 0) = cl.realKey := rfl

/-- The `do_count` cluster traversal: the final match count is the clipped
count of all matching rows, and the key output is the clipped matching-key
sequence. -/
theorem countScanGo_spec (specs : List NodeSpec) :
    ∀ (table : List Cluster) (sibs : List NodeRT) (st : AggState),
      sibs.map NodeRT.spec = specs → sibs ≠ [] →
      (∀ c ∈ table, c.size ≤ notFound) → st.matchCount < st.limit →
      (countScanGo sibs st table).limit = st.limit ∧
      (countScanGo sibs st table).matchCount = st.matchCount +
        min (st.limit - st.matchCount) (matchedKeys (specs.map NodeSpec.pred) table).length ∧
      (countScanGo sibs st table).out = st.out ++
        (matchedKeys (specs.map NodeSpec.pred) table).take (st.limit - st.matchCount) := by
  intro table
  induction table with
  | nil =>
    intro sibs st hs hne hsz hmc
    refine ⟨rfl, ?_, ?_⟩ <;>
      simp [countScanGo, matchedKeys, matchedPositions, tablePositions]
  | cons cl t ih =>
    intro sibs st hs hne hsz hmc
    rw [countScanGo]
    obtain ⟨sibs2, st2, heq, hs2, hfeed⟩ := aggregateInternal_spec cl specs sibs
      { st with keyOffset := cl.offset, keyValues := cl.keys } 0 cl.size hs hne
      (hsz cl (by simp)) hmc
    rw [heq]
    dsimp only
    have hmc1 : ({ st with keyOffset := cl.offset, keyValues := cl.keys } : AggState).matchCount <
        ({ st with keyOffset := cl.offset, keyValues := cl.keys } : AggState).limit := hmc
    rw [clusterMatchRows_eq, feedStop_spec _ _ hmc1] at hfeed
    simp only [] at hfeed
    have hkeymap : ((clusterMatchRows (specs.map NodeSpec.pred) cl 0 cl.size).take
        (st.limit - st.matchCount)).map (fun r => cl.offset + cl.keys.getD r 0) =
        ((clusterMatchRows (specs.map NodeSpec.pred) cl 0 cl.size).map cl.realKey).take
          (st.limit - st.matchCount) := by
      rw [realKey_fun, List.map_take]
    rw [hkeymap] at hfeed
    rw [matchedKeys_cons]
    set A := (clusterMatchRows (specs.map NodeSpec.pred) cl 0 cl.size).map cl.realKey with hA
    set B := matchedKeys (specs.map NodeSpec.pred) t with hB
    have hst2mc : st2.matchCount = st.matchCount +
        min (st.limit - st.matchCount)
          (clusterMatchRows (specs.map NodeSpec.pred) cl 0 cl.size).length := by
      rw [hfeed]
    have hst2lim : st2.limit = st.limit := by rw [hfeed]
    have hst2out : st2.out = st.out ++ A.take (st.limit - st.matchCount) := by rw [hfeed]
    have hAlen : A.length = (clusterMatchRows (specs.map NodeSpec.pred) cl 0 cl.size).length := by
      rw [hA, List.length_map]
    have htakeAB : ∀ n : Nat, (A ++ B).take n = A.take n ++ B.take (n - A.length) :=
      fun n => List.take_append_eq_append_take
    by_cases hstop : st2.matchCount = st2.limit
    · rw [if_pos hstop]
      have hcap : min (st.limit - st.matchCount)
          (clusterMatchRows (specs.map NodeSpec.pred) cl 0 cl.size).length =
          st.limit - st.matchCount := by omega
      have hz : st.limit - st.matchCount - A.length = 0 := by omega
      refine ⟨hst2lim, ?_, ?_⟩
      · rw [hst2mc]
        simp only [List.length_append]
        omega
      · rw [hst2out, htakeAB, hz]
        simp
    · rw [if_neg hstop]
      have hmc2 : st2.matchCount < st2.limit := by
        have hle : st2.matchCount ≤ st2.limit := by
          rw [hst2mc, hst2lim]
          omega
        omega
      obtain ⟨ihl, ihm, iho⟩ := ih sibs2 st2 hs2 (specs_ne_nil hs hne hs2)
        (fun c hc => hsz c (by simp [hc])) hmc2
      have hklt : (clusterMatchRows (specs.map NodeSpec.pred) cl 0 cl.size).length <
          st.limit - st.matchCount := by
        by_contra hge
        apply hstop
        rw [hst2mc, hst2lim]
        omega
      refine ⟨by rw [ihl, hst2lim], ?_, ?_⟩
      · rw [ihm, hst2mc, hst2lim]
        simp only [List.length_append]
        omega
      · rw [iho, hst2out, htakeAB]
        have h1 : A.take (st.limit - st.matchCount) = A :=
          List.take_of_length_le (by omega)
        have h2 : st.limit - st.matchCount - A.length = st2.limit - st2.matchCount := by
          rw [hst2mc, hst2lim]
          omega
        rw [h1, h2, List.append_assoc]

/-- The `find_all` cluster traversal over the full row range: identical
clipping behaviour to the count traversal. -/
theorem findAllScanGo_spec (specs : List NodeSpec) :
    ∀ (table : List Cluster) (sibs : List NodeRT) (st : AggState),
      sibs.map NodeRT.spec = specs → sibs ≠ [] →
      tableSize table ≤ notFound → st.matchCount < st.limit →
      (findAllScanGo sibs st 0 (tableSize table) table).2.limit = st.limit ∧
      (findAllScanGo sibs st 0 (tableSize table) table).2.matchCount = st.matchCount +
        min (st.limit - st.matchCount) (matchedKeys (specs.map NodeSpec.pred) table).length ∧
      (findAllScanGo sibs st 0 (tableSize table) table).2.out = st.out ++
        (matchedKeys (specs.map NodeSpec.pred) table).take (st.limit - st.matchCount) := by
  intro table
  induction table with
  | nil =>
    intro sibs st hs hne hsz hmc
    refine ⟨rfl, ?_, ?_⟩ <;>
      simp [findAllScanGo, matchedKeys, matchedPositions, tablePositions]
  | cons cl t ih =>
    intro sibs st hs hne hsz hmc
    have h64 : tableSize (cl :: t) < 2 ^ 64 := by
      unfold notFound at hsz
      omega
    rw [tableSize_cons] at h64 hsz ⊢
    rw [findAllScanGo]
    rw [matchedKeys_cons]
    set A := (clusterMatchRows (specs.map NodeSpec.pred) cl 0 cl.size).map cl.realKey with hA
    set B := matchedKeys (specs.map NodeSpec.pred) t with hB
    have htakeAB : ∀ n : Nat, (A ++ B).take n = A.take n ++ B.take (n - A.length) :=
      fun n => List.take_append_eq_append_take
    have hwr : wrapSub (cl.size + tableSize t) cl.size = tableSize t := by
      unfold wrapSub
      omega
    by_cases hpos : (0 : Nat) < cl.size
    · rw [if_pos hpos]
      have hclip : ¬ cl.size > cl.size + tableSize t := by omega
      rw [if_neg hclip]
      obtain ⟨sibs2, st2, heq, hs2, hfeed⟩ := aggregateInternal_spec cl specs sibs
        { st with keyOffset := cl.offset, keyValues := cl.keys } 0 cl.size hs hne
        (by unfold notFound; omega) hmc
      simp only []
      rw [heq]
      dsimp only
      have hmc1 : ({ st with keyOffset := cl.offset, keyValues := cl.keys } : AggState).matchCount <
          ({ st with keyOffset := cl.offset, keyValues := cl.keys } : AggState).limit := hmc
      rw [clusterMatchRows_eq, feedStop_spec _ _ hmc1] at hfeed
      have hkeymap : ((clusterMatchRows (specs.map NodeSpec.pred) cl 0 cl.size).take
          (st.limit - st.matchCount)).map (fun r => cl.offset + cl.keys.getD r 0) =
          A.take (st.limit - st.matchCount) := by
        rw [hA, realKey_fun, List.map_take]
      rw [hkeymap] at hfeed
      have hst2mc : st2.matchCount = st.matchCount +
          min (st.limit - st.matchCount)
            (clusterMatchRows (specs.map NodeSpec.pred) cl 0 cl.size).length := by
        rw [hfeed]
      have hst2lim : st2.limit = st.limit := by rw [hfeed]
      have hst2out : st2.out = st.out ++ A.take (st.limit - st.matchCount) := by rw [hfeed]
      have hAlen : A.length = (clusterMatchRows (specs.map NodeSpec.pred) cl 0 cl.size).length := by
        rw [hA, List.length_map]
      rw [hwr]
      by_cases hend : tableSize t = 0
      · rw [if_pos (by simp [hend])]
        have hBnil : B = [] := matchedKeys_nil_of_size _ _ hend
        rw [hBnil]
        refine ⟨hst2lim, ?_, ?_⟩
        · rw [hst2mc]
          simp only [List.append_nil]
          omega
        · rw [hst2out]
          simp only [List.append_nil]
      · by_cases hstop : st2.matchCount = st2.limit
        · rw [if_pos (by simp [hstop])]
          have hcap : min (st.limit - st.matchCount)
              (clusterMatchRows (specs.map NodeSpec.pred) cl 0 cl.size).length =
              st.limit - st.matchCount := by omega
          have hz : st.limit - st.matchCount - A.length = 0 := by omega
          refine ⟨hst2lim, ?_, ?_⟩
          · rw [hst2mc]
            simp only [List.length_append]
            omega
          · rw [hst2out, htakeAB, hz]
            simp
        · rw [if_neg (by simp [hend, hstop])]
          have hmc2 : st2.matchCount < st2.limit := by
            have hle : st2.matchCount ≤ st2.limit := by
              rw [hst2mc, hst2lim]
              omega
            omega
          obtain ⟨ihl, ihm, iho⟩ := ih sibs2 st2 hs2 (specs_ne_nil hs hne hs2)
            (by omega) hmc2
          have hklt : (clusterMatchRows (specs.map NodeSpec.pred) cl 0 cl.size).length <
              st.limit - st.matchCount := by
            by_contra hge
            apply hstop
            rw [hst2mc, hst2lim]
            omega
          refine ⟨by rw [ihl, hst2lim], ?_, ?_⟩
          · rw [ihm, hst2mc, hst2lim]
            simp only [List.length_append]
            omega
          · rw [iho, hst2out, htakeAB]
            have h1 : A.take (st.limit - st.matchCount) = A :=
              List.take_of_length_le (by omega)
            have h2 : st.limit - st.matchCount - A.length = st2.limit - st2.matchCount := by
              rw [hst2mc, hst2lim]
              omega
            rw [h1, h2, List.append_assoc]
    · rw [if_neg hpos]
      have hsize0 : cl.size = 0 := by omega
      have hAnil : A = [] := by
        rw [hA, hsize0]
        simp [clusterMatchRows]
      have hwr0 : wrapSub (cl.size + tableSize t) cl.size = tableSize t := hwr
      rw [hwr0, hAnil]
      by_cases hend : tableSize t = 0
      · rw [if_pos (by simp [hend])]
        have hBnil : B = [] := matchedKeys_nil_of_size _ _ hend
        rw [hBnil]
        refine ⟨rfl, by simp, by simp⟩
      · rw [if_neg (by
          simp only [Bool.or_eq_true, decide_eq_true_eq]
          rintro (hx | hx)
          · exact hend hx
          · omega)]
        have hbg : (0 : Nat) - cl.size = 0 := by omega
        rw [hbg]
        obtain ⟨ihl, ihm, iho⟩ := ih sibs st hs hne (by omega) hmc
        simpa using ⟨ihl, ihm, iho⟩

/-! ## Table geometry and key order -/

theorem tableRealKeys_eq_map (table : List Cluster) :
    tableRealKeys table = (tablePositions table).map objKey := by
  induction table with
  | nil => rfl
  | cons c t ih =>
    unfold tableRealKeys tablePositions at ih ⊢
    rw [List.flatMap_cons, List.flatMap_cons, List.map_append, ih, List.map_map]
    rfl

theorem tableRealKeys_length (table : List Cluster) :
    (tableRealKeys table).length = tableSize table := by
  induction table with
  | nil => rfl
  | cons c t ih =>
    unfold tableRealKeys tableSize at ih ⊢
    rw [List.flatMap_cons, List.length_append, List.length_map, List.length_range,
      List.map_cons, List.sum_cons, ih]

theorem matchedKeys_sublist (preds : List (Cluster → Nat → Bool)) (table : List Cluster) :
    (matchedKeys preds table).Sublist (tableRealKeys table) := by
  rw [tableRealKeys_eq_map, matchedKeys, matchedPositions]
  exact (List.filter_sublist _).map objKey

theorem sortedHeadLe {l : List Nat} (h : List.Chain' (· < ·) l) {x : Nat} (hx : x ∈ l) :
    l.getD 0 0 ≤ x := by
  cases l with
  | nil => exact absurd hx (List.not_mem_nil x)
  | cons a rest =>
    rcases List.mem_cons.mp hx with h1 | h1
    · simp [h1]
    · exact Nat.le_of_lt (List.rel_of_pairwise_cons (List.chain'_iff_pairwise.mp h) h1)

theorem objKey_mem_tableRealKeys {table : List Cluster} {o : Cluster × Nat}
    (ho : o ∈ tablePositions table) : objKey o ∈ tableRealKeys table := by
  rw [tableRealKeys_eq_map]
  exact List.mem_map_of_mem objKey ho

/-! ## The index fast path -/

theorem indexAggregate_take (f : (Cluster × Nat) → Bool) :
    ∀ (ms : List (Cluster × Nat)) (lim : Nat),
      indexAggregate ms lim f = (ms.filter f).take lim := by
  intro ms
  induction ms with
  | nil => intro lim; cases lim <;> rfl
  | cons o os ih =>
    intro lim
    cases lim with
    | zero => rfl
    | succ k =>
      rw [indexAggregate]
      by_cases hf : f o = true
      · rw [if_pos hf, List.filter_cons_of_pos hf, ih, List.take_succ_cons]
      · rw [if_neg hf, List.filter_cons_of_neg (by simp [hf]), ih]

theorem indexAggregate_congr {f g : (Cluster × Nat) → Bool} :
    ∀ (ms : List (Cluster × Nat)) (lim : Nat), (∀ o ∈ ms, f o = g o) →
      indexAggregate ms lim f = indexAggregate ms lim g := by
  intro ms
  induction ms with
  | nil => intro lim _; cases lim <;> rfl
  | cons o os ih =>
    intro lim h
    cases lim with
    | zero => rfl
    | succ k =>
      rw [indexAggregate, indexAggregate, h o (List.mem_cons_self o os)]
      by_cases hg : g o = true
      · rw [if_pos hg, if_pos hg, ih k (fun x hx => h x (List.mem_cons_of_mem o hx))]
      · rw [if_neg hg, if_neg hg, ih (k + 1) (fun x hx => h x (List.mem_cons_of_mem o hx))]

theorem initRT_specs (l : List NodeSpec) : (l.map initRT).map NodeRT.spec = l := by
  induction l with
  | nil => rfl
  | cons a l ih =>
    rw [List.map_cons, List.map_cons, ih]
    rfl

/-! ## The condition-free path -/

theorem findAllNoCondGo_spec :
    ∀ (table : List Cluster) (lim : Nat) (acc : List Nat),
      tableSize table < 2 ^ 64 → lim ≠ 0 →
      findAllNoCondGo 0 (tableSize table) lim acc table = acc ++ (tableRealKeys table).take lim := by
  intro table
  induction table with
  | nil =>
    intro lim acc _ _
    simp [findAllNoCondGo, tableRealKeys]
  | cons cl t ih =>
    intro lim acc h64 hlim
    rw [tableSize_cons] at h64 ⊢
    rw [findAllNoCondGo]
    simp only [Nat.sub_zero]
    have hwr : wrapSub (cl.size + tableSize t) cl.size = tableSize t := by
      unfold wrapSub
      omega
    have hkeys : tableRealKeys (cl :: t) =
        (List.range cl.size).map cl.realKey ++ tableRealKeys t := rfl
    have htk : ∀ k : Nat, k ≤ cl.size →
        (List.range' 0 k).map cl.realKey = ((List.range cl.size).map cl.realKey).take k := by
      intro k hk
      rw [← List.map_take, List.take_range]
      have hmin : k ⊓ cl.size = k := by omega
      rw [hmin, List.range_eq_range']
    by_cases hpos : (0 : Nat) < cl.size
    · rw [if_pos hpos]
      rw [if_neg (show ¬ cl.size > cl.size + tableSize t by omega)]
      rw [hwr]
      rw [hkeys, List.take_append_eq_append_take, List.length_map, List.length_range]
      by_cases hstop : tableSize t = 0 ∨ lim - min cl.size lim = 0
      · have hcond : (decide (tableSize t = 0) || decide (lim - min cl.size lim = 0)) = true := by
          simp only [Bool.or_eq_true, decide_eq_true_eq]
          omega
        rw [if_pos hcond]
        have htnil : (tableRealKeys t).take (lim - cl.size) = [] := by
          rcases hstop with hx | hx
          · have h0 : tableRealKeys t = [] :=
              List.eq_nil_of_length_eq_zero (by rw [tableRealKeys_length]; exact hx)
            rw [h0, List.take_nil]
          · rw [Nat.sub_eq_zero_of_le (by omega), List.take_zero]
        rw [htnil, List.append_nil]
        rw [htk (min cl.size lim) (by omega)]
        congr 1
        rw [List.take_eq_take]
        simp only [List.length_map, List.length_range]
        omega
      · have hcond : ¬ (decide (tableSize t = 0) || decide (lim - min cl.size lim = 0)) = true := by
          simp only [Bool.or_eq_true, decide_eq_true_eq]
          omega
        rw [if_neg hcond]
        push_neg at hstop
        have hk : min cl.size lim = cl.size := by omega
        rw [hk]
        rw [ih (lim - cl.size) _ (by omega) (by omega)]
        have hfull : ((List.range cl.size).map cl.realKey).take lim =
            (List.range cl.size).map cl.realKey :=
          List.take_of_length_le (by rw [List.length_map, List.length_range]; omega)
        rw [hfull, List.range_eq_range', ← List.append_assoc]
    · have hsz0 : cl.size = 0 := by omega
      rw [if_neg hpos, hwr]
      rw [hkeys, hsz0]
      simp only [List.range_zero, List.map_nil, List.nil_append]
      by_cases hend : tableSize t = 0
      · rw [if_pos (by simp [hend])]
        have h0 : tableRealKeys t = [] :=
          List.eq_nil_of_length_eq_zero (by rw [tableRealKeys_length]; exact hend)
        rw [h0, List.take_nil, List.append_nil]
      · rw [if_neg (by simp [hend, hlim])]
        have hbg : (0 : Nat) - 0 = 0 := rfl
        rw [hbg, ih lim acc (by omega) hlim]

/-! ## The view path -/

theorem findAllViewGo_spec (rts : List NodeRT) (v : List (Cluster × Nat)) (lim : Nat) :
    ∀ (n t : Nat) (acc : List Nat), v.length - t ≤ n → acc.length ≤ lim →
      findAllViewGo rts v t v.length lim acc =
        acc ++ (((v.drop t).filter (evalObjectQ rts)).map objKey).take (lim - acc.length) := by
  intro n
  induction n with
  | zero =>
    intro t acc hn hacc
    rw [findAllViewGo]
    rw [dif_neg (by rintro ⟨h1, -⟩; omega)]
    rw [List.drop_eq_nil_of_le (by omega)]
    simp
  | succ k ih =>
    intro t acc hn hacc
    rw [findAllViewGo]
    by_cases hc : t < v.length ∧ acc.length < lim
    · rw [dif_pos hc]
      obtain ⟨ht, hlt⟩ := hc
      have hdrop : v.drop t = v.getD t (⟨0, [], [], []⟩, 0) :: v.drop (t + 1) := by
        rw [List.getD_eq_getElem v _ ht]
        exact List.drop_eq_getElem_cons ht
      rw [hdrop]
      simp only []
      by_cases hev : evalObjectQ rts (v.getD t (⟨0, [], [], []⟩, 0)) = true
      · rw [if_pos hev]
        rw [ih (t + 1) _ (by omega) (by rw [List.length_append]; simp; omega)]
        rw [List.filter_cons_of_pos hev, List.map_cons]
        have hm : lim - acc.length = (lim - (acc ++ [objKey (v.getD t (⟨0, [], [], []⟩, 0))]).length) + 1 := by
          rw [List.length_append]
          simp
          omega
        rw [hm, List.take_succ_cons, List.append_assoc]
        rfl
      · rw [if_neg hev]
        rw [ih (t + 1) acc (by omega) hacc]
        rw [List.filter_cons_of_neg (by simpa using hev)]
    · rw [dif_neg hc]
      by_cases h1 : t < v.length
      · have h2 : acc.length = lim := by
          rcases not_and_or.mp hc with h | h
          · exact absurd h1 h
          · omega
        rw [h2, Nat.sub_self, List.take_zero, List.append_nil]
      · rw [List.drop_eq_nil_of_le (by omega)]
        simp

theorem countViewGo_spec (rts : List NodeRT) (v : List (Cluster × Nat)) (lim : Nat) :
    ∀ (n t cnt : Nat), v.length - t ≤ n → cnt ≤ lim →
      countViewGo rts v t lim cnt =
        min lim (cnt + ((v.drop t).filter (evalObjectQ rts)).length) := by
  intro n
  induction n with
  | zero =>
    intro t cnt hn hcnt
    rw [countViewGo]
    rw [dif_neg (by rintro ⟨h1, -⟩; omega)]
    rw [List.drop_eq_nil_of_le (by omega)]
    simp
    omega
  | succ k ih =>
    intro t cnt hn hcnt
    rw [countViewGo]
    by_cases hc : t < v.length ∧ cnt < lim
    · rw [dif_pos hc]
      obtain ⟨ht, hlt⟩ := hc
      have hdrop : v.drop t = v.getD t (⟨0, [], [], []⟩, 0) :: v.drop (t + 1) := by
        rw [List.getD_eq_getElem v _ ht]
        exact List.drop_eq_getElem_cons ht
      rw [hdrop]
      by_cases hev : evalObjectQ rts (v.getD t (⟨0, [], [], []⟩, 0)) = true
      · rw [if_pos hev]
        rw [ih (t + 1) (cnt + 1) (by omega) (by omega)]
        rw [List.filter_cons_of_pos hev, List.length_cons]
        omega
      · rw [if_neg hev]
        rw [ih (t + 1) cnt (by omega) hcnt]
        rw [List.filter_cons_of_neg (by simpa using hev)]
    · rw [dif_neg hc]
      by_cases h1 : t < v.length
      · have h2 : cnt = lim := by
          rcases not_and_or.mp hc with h | h
          · exact absurd h1 h
          · omega
        omega
      · rw [List.drop_eq_nil_of_le (by omega)]
        simp
        omega

/-! ## Path characterisations of `find_all` and `do_count` -/

theorem isEmpty_false_of_ne_nil {α : Type} {l : List α} (h : l ≠ []) : l.isEmpty = false := by
  cases hq : l with
  | nil => exact absurd hq h
  | cons a t => rfl

theorem findAllExec_noCond (q : ExecQuery) (table : List Cluster) (lim : Nat)
    (hview : q.view = none) (hemp : q.sibs = []) (hsize : tableSize table ≤ notFound) :
    findAllExec q table 0 notFound lim = (tableRealKeys table).take lim := by
  by_cases hl : lim = 0
  · rw [hl]
    simp [findAllExec]
  · unfold findAllExec
    rw [if_neg hl, hview]
    simp only [hemp, List.isEmpty_nil, if_pos rfl, if_true]
    rw [findAllNoCondGo_spec table lim [] (by unfold notFound at hsize; omega) hl]
    rw [List.nil_append]

theorem findAllExec_scan (q : ExecQuery) (table : List Cluster) (lim : Nat)
    (hview : q.view = none) (hne : q.sibs ≠ [])
    (hidx : (q.sibs.getD (findBestNode (q.sibs.map initRT)) dSpec).hasIndex = false)
    (hsize : tableSize table ≤ notFound) :
    findAllExec q table 0 notFound lim =
      (matchedKeys (q.sibs.map NodeSpec.pred) table).take lim := by
  by_cases hl : lim = 0
  · rw [hl]
    simp [findAllExec]
  · unfold findAllExec
    rw [if_neg hl, hview]
    simp only [isEmpty_false_of_ne_nil hne, if_pos rfl, if_true, Bool.false_eq_true, if_false,
      hidx]
    have hmain := findAllScanGo_spec q.sibs table (q.sibs.map initRT)
      ⟨lim, 0, 0, [], []⟩ (initRT_specs q.sibs) (fun h => hne (List.map_eq_nil_iff.mp h))
      hsize (by show 0 < lim; omega)
    rw [hmain.2.2]
    simp

theorem findAllExec_view (q : ExecQuery) (table : List Cluster) (lim : Nat)
    (v : List (Cluster × Nat)) (hview : q.view = some v) :
    findAllExec q table 0 notFound lim =
      ((v.filter (evalObjectQ (q.sibs.map initRT))).map objKey).take lim := by
  by_cases hl : lim = 0
  · rw [hl]
    simp [findAllExec]
  · unfold findAllExec
    rw [if_neg hl, hview]
    simp only [if_pos rfl, if_true]
    rw [findAllViewGo_spec (q.sibs.map initRT) v lim v.length 0 [] (by omega) (by simp)]
    simp

theorem tablePositions_nil_of_size {table : List Cluster} (h : tableSize table = 0) :
    tablePositions table = [] :=
  List.eq_nil_of_length_eq_zero (by rw [tablePositions_length]; exact h)

theorem findAllExec_index (q : ExecQuery) (table : List Cluster) (lim : Nat)
    (hview : q.view = none) (hne : q.sibs ≠ [])
    (hidx : (q.sibs.getD (findBestNode (q.sibs.map initRT)) dSpec).hasIndex = true)
    (hsort : tableSorted table) :
    findAllExec q table 0 notFound lim =
      (((indexMatches (q.sibs.getD (findBestNode (q.sibs.map initRT)) dSpec) table).filter
        (evalObjectQ (q.sibs.map initRT))).take lim).map objKey := by
  by_cases hl : lim = 0
  · rw [hl]
    simp [findAllExec]
  · unfold findAllExec
    rw [if_neg hl, hview]
    simp only [isEmpty_false_of_ne_nil hne, if_pos rfl, if_true, Bool.false_eq_true, if_false,
      hidx]
    by_cases hz : tableSize table = 0
    · rw [indexAggregate_congr _ lim (fun o ho => rfl), indexAggregate_take]
      unfold indexMatches
      rw [tablePositions_nil_of_size hz]
      simp
    · have hbg : ¬ (tableSize table ≤ 0) := by omega
      simp only [ge_iff_le, le_refl, if_true, if_neg hbg]
      have hcg := @indexAggregate_congr
        (fun o => decide ((tableRealKeys table).getD 0 0 ≤ objKey o) && true &&
          evalObjectQ (q.sibs.map initRT) o)
        (evalObjectQ (q.sibs.map initRT))
        (indexMatches (q.sibs.getD (findBestNode (q.sibs.map initRT)) dSpec) table) lim
        (fun o ho => by
          have hmem : objKey o ∈ tableRealKeys table :=
            objKey_mem_tableRealKeys (List.mem_of_mem_filter ho)
          have hk0 : (tableRealKeys table)[0]?.getD 0 ≤ objKey o := by simpa using sortedHeadLe hsort hmem
          simp [hk0])
      rw [hcg, indexAggregate_take]

theorem cluster_size_le_tableSize {table : List Cluster} {c : Cluster} (hc : c ∈ table) :
    c.size ≤ tableSize table := by
  induction table with
  | nil => exact absurd hc (List.not_mem_nil c)
  | cons a t ih =>
    rw [tableSize_cons]
    rcases List.mem_cons.mp hc with h | h
    · rw [h]
      omega
    · have := ih h
      omega

theorem doCountExec_noCond_none (q : ExecQuery) (table : List Cluster) (lim : Nat)
    (hview : q.view = none) (hemp : q.sibs = []) (hl : lim ≠ 0) :
    doCountExec q table lim = min (tableSize table) lim := by
  unfold doCountExec
  rw [if_neg hl, hview]
  simp only [hemp, List.isEmpty_nil, if_true]

theorem doCountExec_noCond_view (q : ExecQuery) (table : List Cluster) (lim : Nat)
    (v : List (Cluster × Nat)) (hview : q.view = some v) (hemp : q.sibs = []) (hl : lim ≠ 0) :
    doCountExec q table lim = min v.length lim := by
  unfold doCountExec
  rw [if_neg hl, hview]
  simp only [hemp, List.isEmpty_nil, if_true]

theorem doCountExec_view (q : ExecQuery) (table : List Cluster) (lim : Nat)
    (v : List (Cluster × Nat)) (hview : q.view = some v) (hne : q.sibs ≠ []) (hl : lim ≠ 0) :
    doCountExec q table lim =
      min lim ((v.filter (evalObjectQ (q.sibs.map initRT))).length) := by
  unfold doCountExec
  rw [if_neg hl, hview]
  simp only [isEmpty_false_of_ne_nil hne, Bool.false_eq_true, if_false]
  rw [countViewGo_spec (q.sibs.map initRT) v lim v.length 0 0 (by omega) (by omega)]
  simp

theorem doCountExec_scan (q : ExecQuery) (table : List Cluster) (lim : Nat)
    (hview : q.view = none) (hne : q.sibs ≠ [])
    (hidx : (q.sibs.getD (findBestNode (q.sibs.map initRT)) dSpec).hasIndex = false)
    (hsize : tableSize table ≤ notFound) (hl : lim ≠ 0) :
    doCountExec q table lim =
      min lim (matchedKeys (q.sibs.map NodeSpec.pred) table).length := by
  unfold doCountExec
  rw [if_neg hl, hview]
  simp only [isEmpty_false_of_ne_nil hne, Bool.false_eq_true, if_false, hidx]
  have hmain := countScanGo_spec q.sibs table (q.sibs.map initRT)
    ⟨lim, 0, 0, [], []⟩ (initRT_specs q.sibs) (fun h => hne (List.map_eq_nil_iff.mp h))
    (fun c hc => le_trans (cluster_size_le_tableSize hc) hsize) (by show 0 < lim; omega)
  rw [hmain.2.1]
  simp

theorem doCountExec_index (q : ExecQuery) (table : List Cluster) (lim : Nat)
    (hview : q.view = none) (hne : q.sibs ≠ [])
    (hidx : (q.sibs.getD (findBestNode (q.sibs.map initRT)) dSpec).hasIndex = true)
    (hl : lim ≠ 0) :
    doCountExec q table lim =
      min lim ((indexMatches (q.sibs.getD (findBestNode (q.sibs.map initRT)) dSpec) table).filter
        (evalObjectQ (q.sibs.map initRT))).length := by
  unfold doCountExec
  rw [if_neg hl, hview]
  simp only [isEmpty_false_of_ne_nil hne, Bool.false_eq_true, if_false, hidx, if_true]
  rw [indexAggregate_take, List.length_take]

/-- **C1.** For every query evaluated without a view (and a table satisfying
the cluster-tree key invariant), `find_all` yields the matching ObjKeys in
strictly increasing ObjKey order — on the cluster-scan path and the index
fast path alike (and on the condition-free path). -/
theorem claim_C1 (q : ExecQuery) (table : List Cluster) (lim : Nat)
    (hview : q.view = none) (hsort : tableSorted table)
    (hsize : tableSize table ≤ notFound) :
    List.Chain' (· < ·) (findAllExec q table 0 notFound lim) := by
  have hchain : ∀ l : List Nat, l.Sublist (tableRealKeys table) → List.Chain' (· < ·) l :=
    fun l hl => List.Chain'.sublist hsort hl
  by_cases hemp : q.sibs = []
  · rw [findAllExec_noCond q table lim hview hemp hsize]
    exact hchain _ (List.take_sublist _ _)
  · by_cases hidx : (q.sibs.getD (findBestNode (q.sibs.map initRT)) dSpec).hasIndex = true
    · rw [findAllExec_index q table lim hview hemp hidx hsort]
      refine hchain _ ?_
      rw [tableRealKeys_eq_map]
      refine List.Sublist.map objKey ?_
      exact ((List.take_sublist _ _).trans (List.filter_sublist _)).trans
        (List.filter_sublist _)
    · rw [findAllExec_scan q table lim hview hemp (by simpa using hidx) hsize]
      exact hchain _ ((List.take_sublist _ _).trans (matchedKeys_sublist _ _))

theorem claim_C1_witness :
    List.Chain' (· < ·)
      (findAllExec ⟨[⟨fun c r => decide (c.ivals.getD r 0 > 1), 100, 10, false⟩], none⟩
        [⟨5, [0, 2, 7], [3, 1, 4], []⟩] 0 notFound 5) :=
  claim_C1 _ _ 5 rfl (by unfold tableSorted; rw [List.chain'_iff_pairwise]; decide) (by decide)

/-- **C2.** For every query, `count` with no limit (`limit = size_t(-1)`)
equals the number of keys returned by `find_all` over the full row range, and
for every limit `L`, `count(q, L) = min(L, count(q))` — across the
condition-free, view, index and cluster-scan paths. -/
theorem claim_C2 (q : ExecQuery) (table : List Cluster) (L : Nat)
    (hsize : tableSize table ≤ notFound) (hsort : tableSorted table)
    (hview : ∀ v, q.view = some v → v.length ≤ notFound) :
    doCountExec q table notFound = (findAllExec q table 0 notFound notFound).length ∧
    doCountExec q table L = min L (doCountExec q table notFound) := by
  have hnf : notFound ≠ 0 := by decide
  have hL0 : L = 0 → doCountExec q table L = 0 := by
    intro h
    unfold doCountExec
    rw [if_pos h]
  by_cases hemp : q.sibs = []
  · cases hv : q.view with
    | none =>
      rw [doCountExec_noCond_none q table notFound hv hemp hnf,
        findAllExec_noCond q table notFound hv hemp hsize]
      refine ⟨?_, ?_⟩
      · rw [List.length_take, tableRealKeys_length]
        omega
      · by_cases hL : L = 0
        · rw [hL0 hL, hL]
          omega
        · rw [doCountExec_noCond_none q table L hv hemp hL]
          omega
    | some v =>
      have hvlen : v.length ≤ notFound := hview v hv
      have hfilter : v.filter (evalObjectQ (q.sibs.map initRT)) = v :=
        List.filter_eq_self.mpr (fun a _ => by rw [hemp]; rfl)
      rw [doCountExec_noCond_view q table notFound v hv hemp hnf,
        findAllExec_view q table notFound v hv, hfilter]
      refine ⟨?_, ?_⟩
      · rw [List.length_take, List.length_map]
        omega
      · by_cases hL : L = 0
        · rw [hL0 hL, hL]
          omega
        · rw [doCountExec_noCond_view q table L v hv hemp hL]
          omega
  · cases hv : q.view with
    | some v =>
      have hvlen : v.length ≤ notFound := hview v hv
      have hfl : (v.filter (evalObjectQ (q.sibs.map initRT))).length ≤ v.length :=
        List.length_filter_le _ _
      rw [doCountExec_view q table notFound v hv hemp hnf,
        findAllExec_view q table notFound v hv]
      refine ⟨?_, ?_⟩
      · rw [List.length_take, List.length_map]
      · by_cases hL : L = 0
        · rw [hL0 hL, hL]
          omega
        · rw [doCountExec_view q table L v hv hemp hL]
          omega
    | none =>
      by_cases hidx : (q.sibs.getD (findBestNode (q.sibs.map initRT)) dSpec).hasIndex = true
      · have hkl : ((indexMatches (q.sibs.getD (findBestNode (q.sibs.map initRT)) dSpec)
            table).filter (evalObjectQ (q.sibs.map initRT))).length ≤ tableSize table := by
          refine le_trans (List.length_filter_le _ _) ?_
          rw [← tablePositions_length]
          exact List.length_filter_le _ _
        rw [doCountExec_index q table notFound hv hemp hidx hnf,
          findAllExec_index q table notFound hv hemp hidx hsort]
        refine ⟨?_, ?_⟩
        · rw [List.length_map, List.length_take]
        · by_cases hL : L = 0
          · rw [hL0 hL, hL]
            omega
          · rw [doCountExec_index q table L hv hemp hidx hL]
            omega
      · have hidx2 : (q.sibs.getD (findBestNode (q.sibs.map initRT)) dSpec).hasIndex = false := by
          simpa using hidx
        have hkl : (matchedKeys (q.sibs.map NodeSpec.pred) table).length ≤ tableSize table :=
          matchedKeys_length_le _ _
        rw [doCountExec_scan q table notFound hv hemp hidx2 hsize hnf,
          findAllExec_scan q table notFound hv hemp hidx2 hsize]
        refine ⟨?_, ?_⟩
        · rw [List.length_take]
        · by_cases hL : L = 0
          · rw [hL0 hL, hL]
            omega
          · rw [doCountExec_scan q table L hv hemp hidx2 hsize hL]
            omega

theorem claim_C2_witness :
    doCountExec ⟨[⟨fun c r => decide (c.ivals.getD r 0 > 1), 100, 10, false⟩], none⟩
        [⟨5, [0, 2, 7], [3, 1, 4], []⟩] notFound =
      (findAllExec ⟨[⟨fun c r => decide (c.ivals.getD r 0 > 1), 100, 10, false⟩], none⟩
        [⟨5, [0, 2, 7], [3, 1, 4], []⟩] 0 notFound notFound).length ∧
    doCountExec ⟨[⟨fun c r => decide (c.ivals.getD r 0 > 1), 100, 10, false⟩], none⟩
        [⟨5, [0, 2, 7], [3, 1, 4], []⟩] 1 =
      min 1 (doCountExec ⟨[⟨fun c r => decide (c.ivals.getD r 0 > 1), 100, 10, false⟩], none⟩
        [⟨5, [0, 2, 7], [3, 1, 4], []⟩] notFound) :=
  claim_C2 _ _ 1 (by decide) (by unfold tableSorted; rw [List.chain'_iff_pairwise]; decide)
    (fun v hv => by simp at hv)

/-- **C5.** `greater_equal(c, INT64_MIN)` and `less_equal(c, INT64_MAX)` add
no condition node (the query is returned unchanged), and consequently each
such query, starting from a fresh query, yields all rows of the table. -/
theorem claim_C5 (q : QueryS) (col : Nat) (table : List Cluster)
    (hsize : tableSize table ≤ notFound) :
    q.greaterEqualInt col INT64_MIN = q ∧ q.lessEqualInt col INT64_MAX = q ∧
    findAllB (emptyQuery.greaterEqualInt col INT64_MIN) table 0 notFound notFound =
      tableRealKeys table ∧
    findAllB (emptyQuery.lessEqualInt col INT64_MAX) table 0 notFound notFound =
      tableRealKeys table := by
  have hge : ∀ p : QueryS, p.greaterEqualInt col INT64_MIN = p := by
    intro p
    unfold QueryS.greaterEqualInt
    rw [if_neg (by decide)]
  have hle : ∀ p : QueryS, p.lessEqualInt col INT64_MAX = p := by
    intro p
    unfold QueryS.lessEqualInt
    rw [if_neg (by decide)]
  have hall : findAllB emptyQuery table 0 notFound notFound = tableRealKeys table := by
    unfold findAllB
    rw [findAllExec_noCond _ table notFound rfl rfl hsize]
    exact List.take_of_length_le (by rw [tableRealKeys_length]; exact hsize)
  exact ⟨hge q, hle q, by rw [hge emptyQuery]; exact hall, by rw [hle emptyQuery]; exact hall⟩

theorem claim_C5_witness :
    emptyQuery.greaterEqualInt 0 INT64_MIN = emptyQuery ∧
    emptyQuery.lessEqualInt 0 INT64_MAX = emptyQuery ∧
    findAllB (emptyQuery.greaterEqualInt 0 INT64_MIN)
      [⟨5, [0, 2, 7], [3, 1, 4], []⟩] 0 notFound notFound = tableRealKeys [⟨5, [0, 2, 7], [3, 1, 4], []⟩] ∧
    findAllB (emptyQuery.lessEqualInt 0 INT64_MAX)
      [⟨5, [0, 2, 7], [3, 1, 4], []⟩] 0 notFound notFound = tableRealKeys [⟨5, [0, 2, 7], [3, 1, 4], []⟩] :=
  claim_C5 emptyQuery 0 [⟨5, [0, 2, 7], [3, 1, 4], []⟩] (by decide)

/-! ## `StringNode<Equal>` coalescing (claim C3) -/

theorem mem_insertNeedle {l : List (Option String)} {v x : Option String} :
    x ∈ insertNeedle l v ↔ x ∈ l ∨ x = v := by
  unfold insertNeedle
  by_cases hv : v ∈ l
  · rw [if_pos hv]
    constructor
    · exact Or.inl
    · rintro (h | h)
      · exact h
      · rw [h]
        exact hv
  · rw [if_neg hv]
    simp

theorem insertNeedle_ne_nil (l : List (Option String)) (v : Option String) :
    insertNeedle l v ≠ [] := by
  unfold insertNeedle
  by_cases hv : v ∈ l
  · rw [if_pos hv]
    intro h
    rw [h] at hv
    exact List.not_mem_nil v hv
  · rw [if_neg hv]
    simp

theorem consumeCondition_needles (m other : StringEqNode) (hm : m.needles ≠ []) :
    (consumeCondition m other).needles = insertNeedle m.needles other.value := by
  unfold consumeCondition
  rw [if_neg (by simpa using isEmpty_false_of_ne_nil hm)]

theorem coalesceGo_mem (x : Option String) :
    ∀ (ws : List (Option String)) (m : StringEqNode), m.needles ≠ [] →
      ((ws.foldl (fun m v => consumeCondition m ⟨v, []⟩) m).needles ≠ [] ∧
       (x ∈ (ws.foldl (fun m v => consumeCondition m ⟨v, []⟩) m).needles ↔
         x ∈ m.needles ∨ x ∈ ws)) := by
  intro ws
  induction ws with
  | nil =>
    intro m hm
    refine ⟨hm, ?_⟩
    simp
  | cons w ws ih =>
    intro m hm
    rw [List.foldl_cons]
    have hstep : (consumeCondition m ⟨w, []⟩).needles = insertNeedle m.needles w :=
      consumeCondition_needles m ⟨w, []⟩ hm
    obtain ⟨h1, h2⟩ := ih (consumeCondition m ⟨w, []⟩)
      (by rw [hstep]; exact insertNeedle_ne_nil _ _)
    refine ⟨h1, ?_⟩
    rw [h2, hstep, mem_insertNeedle]
    simp
    tauto

theorem coalesce_mem (v1 : Option String) {vs : List (Option String)} (hvs : vs ≠ [])
    (x : Option String) : x ∈ (coalesce v1 vs).needles ↔ x = v1 ∨ x ∈ vs := by
  cases vs with
  | nil => exact absurd rfl hvs
  | cons w ws =>
    unfold coalesce
    rw [List.foldl_cons]
    have hfirst : (consumeCondition ⟨v1, []⟩ ⟨w, []⟩).needles = insertNeedle [v1] w := by
      unfold consumeCondition insertNeedle
      simp
    obtain ⟨-, h2⟩ := coalesceGo_mem x ws (consumeCondition ⟨v1, []⟩ ⟨w, []⟩)
      (by rw [hfirst]; exact insertNeedle_ne_nil _ _)
    rw [h2, hfirst, mem_insertNeedle]
    simp
    tauto

theorem coalesce_needles_ne_nil (v1 : Option String) {vs : List (Option String)}
    (hvs : vs ≠ []) : (coalesce v1 vs).needles ≠ [] := by
  cases vs with
  | nil => exact absurd rfl hvs
  | cons w ws =>
    unfold coalesce
    rw [List.foldl_cons]
    have hfirst : (consumeCondition ⟨v1, []⟩ ⟨w, []⟩).needles = insertNeedle [v1] w := by
      unfold consumeCondition insertNeedle
      simp
    exact (coalesceGo_mem none ws (consumeCondition ⟨v1, []⟩ ⟨w, []⟩)
      (by rw [hfirst]; exact insertNeedle_ne_nil _ _)).1

theorem linearProbe_iff (needles : List (Option String)) (x : Option String) :
    linearProbe needles x = true ↔ x ∈ needles := by
  induction needles with
  | nil => simp [linearProbe]
  | cons n rest ih =>
    rw [linearProbe]
    by_cases hnx : (n == x) = true
    · rw [if_pos hnx]
      have : n = x := by simpa using hnx
      simp [this]
    · rw [if_neg hnx]
      have hne : ¬ n = x := by simpa using hnx
      rw [ih]
      simp
      tauto

theorem hashProbe_iff (needles : List (Option String)) (x : Option String) :
    hashProbe needles x = true ↔ x ∈ needles := by
  unfold hashProbe
  simp

theorem findFirstLocalP_congr {p q : Nat → Bool} (h : ∀ i, p i = q i) (s e : Nat) :
    findFirstLocalP p s e = findFirstLocalP q s e := by
  have : p = q := funext h
  rw [this]

theorem boolExt {P Q : Bool} (h : P = true ↔ Q = true) : P = Q := by
  cases P <;> cases Q <;> simp_all

theorem stringEq_scan (v1 : Option String) {vs : List (Option String)} (hvs : vs ≠ [])
    (leaf : List (Option String)) (s e : Nat) (he : e ≠ notFound) :
    stringEqFindFirstLocal (coalesce v1 vs) leaf s e =
      findFirstLocalP (fun i => (v1 :: vs).contains (leaf.getD i none)) s e := by
  unfold stringEqFindFirstLocal
  rw [if_neg (by simpa using isEmpty_false_of_ne_nil (coalesce_needles_ne_nil v1 hvs))]
  rw [if_neg he]
  have hpt : ∀ x : Option String,
      (linearProbe (coalesce v1 vs).needles x = (v1 :: vs).contains x) ∧
      (hashProbe (coalesce v1 vs).needles x = (v1 :: vs).contains x) := by
    intro x
    have hmem : x ∈ (coalesce v1 vs).needles ↔ x ∈ v1 :: vs := by
      rw [coalesce_mem v1 hvs]
      simp
    have hcont : ∀ l : List (Option String), l.contains x = true ↔ x ∈ l :=
      fun l => hashProbe_iff l x
    constructor
    · refine boolExt ?_
      rw [linearProbe_iff, hcont]
      exact hmem
    · refine boolExt ?_
      rw [hashProbe_iff, hcont]
      exact hmem
  by_cases hlen : (coalesce v1 vs).needles.length < 20
  · rw [if_pos hlen]
    exact findFirstLocalP_congr (fun i => (hpt (leaf.getD i none)).1) s e
  · rw [if_neg hlen]
    exact findFirstLocalP_congr (fun i => (hpt (leaf.getD i none)).2) s e

theorem mem_tablePositions {table : List Cluster} {o : Cluster × Nat}
    (ho : o ∈ tablePositions table) : o.1 ∈ table ∧ o.2 < o.1.size := by
  unfold tablePositions at ho
  rw [List.mem_flatMap] at ho
  obtain ⟨c, hc, hm⟩ := ho
  rw [List.mem_map] at hm
  obtain ⟨r, hr, rfl⟩ := hm
  exact ⟨hc, List.mem_range.mp hr⟩

/-- **C3.** For an AND of `N ≥ 2` equal-string conditions on the same
unindexed string column, the subsequent nodes are consumed into the first
node's needle set: membership in the needle set is exactly membership in the
`N` condition values; `_find_first_local` performs one scan probing the
needles (linearly below 20 needles, by hash-set membership beyond), equal to
the canonical membership scan; and the coalesced query's `find_all` result is
exactly the rows whose string value belongs to the needle set. -/
theorem claim_C3 (v1 : Option String) (vs : List (Option String)) (hvs : vs ≠ [])
    (table : List Cluster) (lim : Nat) (hsize : tableSize table < notFound) :
    (∀ x, x ∈ (coalesce v1 vs).needles ↔ x = v1 ∨ x ∈ vs) ∧
    (∀ (leaf : List (Option String)) (s e : Nat), e ≠ notFound →
      stringEqFindFirstLocal (coalesce v1 vs) leaf s e =
        findFirstLocalP (fun i => (v1 :: vs).contains (leaf.getD i none)) s e) ∧
    findAllExec ⟨[stringNodeSpecOf (coalesce v1 vs)], none⟩ table 0 notFound lim =
      (matchedKeys [fun c r => (v1 :: vs).contains (c.svals.getD r none)] table).take lim := by
  refine ⟨coalesce_mem v1 hvs, fun leaf s e he => stringEq_scan v1 hvs leaf s e he, ?_⟩
  rw [findAllExec_scan ⟨[stringNodeSpecOf (coalesce v1 vs)], none⟩ table lim rfl (by simp) rfl (le_of_lt hsize)]
  have hmk : matchedKeys ([stringNodeSpecOf (coalesce v1 vs)].map NodeSpec.pred) table =
      matchedKeys [fun c r => (v1 :: vs).contains (c.svals.getD r none)] table := by
    unfold matchedKeys matchedPositions
    congr 1
    apply List.filter_congr
    intro o ho
    obtain ⟨hc, hr⟩ := mem_tablePositions ho
    have hsz : o.1.size ≤ tableSize table := cluster_size_le_tableSize hc
    have hrn : o.2 + 1 ≠ notFound := by omega
    simp only [List.map_cons, List.map_nil, List.all_cons, List.all_nil, Bool.and_true]
    show (stringEqFindFirstLocal (coalesce v1 vs) o.1.svals o.2 (o.2 + 1) == o.2) =
      (v1 :: vs).contains (o.1.svals.getD o.2 none)
    rw [stringEq_scan v1 hvs _ _ _ hrn, findFirstLocalP_singleton]
    by_cases hp : (v1 :: vs).contains (o.1.svals.getD o.2 none) = true
    · rw [if_pos hp, hp]
      simp
    · rw [if_neg hp]
      rw [Bool.not_eq_true] at hp
      rw [hp]
      have hne : notFound ≠ o.2 := by omega
      simp [hne]
  rw [hmk]

theorem claim_C3_witness :
    (∀ x, x ∈ (coalesce (some "a") [some "b"]).needles ↔ x = some "a" ∨ x ∈ [some "b"]) ∧
    (∀ (leaf : List (Option String)) (s e : Nat), e ≠ notFound →
      stringEqFindFirstLocal (coalesce (some "a") [some "b"]) leaf s e =
        findFirstLocalP (fun i => [some "a", some "b"].contains (leaf.getD i none)) s e) ∧
    findAllExec ⟨[stringNodeSpecOf (coalesce (some "a") [some "b"])], none⟩
        [⟨0, [0, 1], [], [some "b", some "c"]⟩] 0 notFound 5 =
      (matchedKeys [fun c r => [some "a", some "b"].contains (c.svals.getD r none)]
        [⟨0, [0, 1], [], [some "b", some "c"]⟩]).take 5 :=
  claim_C3 (some "a") [some "b"] (by simp) [⟨0, [0, 1], [], [some "b", some "c"]⟩] 5 (by decide)

/-- **C4.** Refuted — code bug in `NotNode::find_first_covered_by_known`
(query_engine.cpp:418): the guard `m_first_in_known_range > end` should be
`>=` because `end` is exclusive.  Concretely: with the negated child matching
every row except row 5 (so the NotNode matches only row 5), a first call
`find_first_local(0, 10)` after `init()` returns 5 and caches
`{0, 10, 5}`; a subsequent call `find_first_local(2, 5)` hits the
covered-by-known case and returns row 5 — which lies outside `[2, 5)` —
whereas the plain per-row scan over `[2, 5)` returns `not_found`.  So the
result is neither `not_found` nor a row in `[start, end)`, contradicting the
claimed contract. -/
theorem claim_C4 :
    (notFindFirstLocal ⟨0, List.range 10, [], []⟩ [initRT ⟨fun _ r => r != 5, 10, 10, false⟩]
        notNodeInit 0 10).2 = 5 ∧
    (notFindFirstLocal ⟨0, List.range 10, [], []⟩ [initRT ⟨fun _ r => r != 5, 10, 10, false⟩]
        notNodeInit 0 10).1 = ⟨0, 10, 5⟩ ∧
    (notFindFirstLocal ⟨0, List.range 10, [], []⟩ [initRT ⟨fun _ r => r != 5, 10, 10, false⟩]
        ⟨0, 10, 5⟩ 2 5).2 = 5 ∧
    findFirstLoopN ⟨0, List.range 10, [], []⟩ [initRT ⟨fun _ r => r != 5, 10, 10, false⟩] 2 5 =
      notFound ∧
    ¬ ((5 : Nat) < 5) ∧ (5 : Nat) ≠ notFound := by
  refine ⟨by decide, by decide, by decide, by decide, by omega, by decide⟩
